import Mathlib

/-
Verification of the Prakrit unified parser (unified_parser.py, noun_analyzer.py).

Shallow embedding conventions:
  * Words and all text that undergoes suffix manipulation are `List Char`
    (Harvard-Kyoto code points, kept verbatim, including the IAST characters
    that appear in the suffix tables of the source).
  * Python float confidences are embedded as `ℚ`; every literal of the source
    (0.95, 0.05, ...) is an exactly representable decimal and all arithmetic
    in the source is addition/subtraction/min/max/division of such literals,
    so ℚ mirrors the intended arithmetic.
  * Python dicts whose insertion/iteration order matters (the suffix tables,
    the attested-form databases, the feedback tables) are association lists.
  * Python `list.sort(key=..., reverse=True)` is a stable descending sort;
    it is embedded by `sortD`, a stable insertion sort that places an element
    before the first element whose key is ≤ its own.
  * The aksharamukha transliteration service is an external collaborator:
    it is a parameter (`dev2hk`) applied exactly where the source calls
    `transliterate_to_hk`, i.e. only on input that contains Devanagari
    codepoints; on HK input the source returns the text unchanged.
  * The dictionary-meaning and Devanagari enrichment steps of `parse` only
    add presentational keys (`dictionary`, `devanagari`, `stem_devanagari`,
    `root_devanagari`) to the analysis dicts and never touch stem, root,
    suffix, ending, source or confidence; they are not modelled.
  * The f-string `notes` entries are embedded as the inductive `Note`, one
    constructor per distinct message template of the source, carrying the
    interpolated payloads.
-/

set_option allowUnsafeReducibility true
attribute [semireducible] Rat.add Rat.sub Rat.mul Rat.inv Rat.ofScientific

namespace Prakrit

/-- Python `min(a, b)` on two rationals. -/
def qmin (a b : ℚ) : ℚ := if a ≤ b then a else b

/-- Python `max(a, b)` on two rationals. -/
def qmax (a b : ℚ) : ℚ := if a ≤ b then b else a

theorem qmin_eq_min (a b : ℚ) : qmin a b = min a b := by
  unfold qmin
  rw [min_def]

theorem qmax_eq_max (a b : ℚ) : qmax a b = max a b := by
  unfold qmax
  rw [max_def]

/-- Does `p` occur as a contiguous infix of `w`? Embeds the Python
substring test `p in w` used by `validate_prakrit_characters`. -/
def hasInfix (p w : List Char) : Bool :=
  w.tails.any (fun t => p.isPrefixOf t)

/-- First-match association-list lookup with decidable key equality; embeds
`d.get(k)` / `k in d` / `d[k]` on a Python dict snapshot. -/
def assocGet {β : Type} (k : List Char) : List (List Char × β) → Option β
  | [] => none
  | (k1, v) :: l => if k = k1 then some v else assocGet k l

/-- Upsert on an association list: if the key is present the value is updated
in place, otherwise `(k, f d)` is appended at the end — exactly the effect of
`if k not in d: d[k] = default` followed by a mutation of `d[k]` on a Python
dict, whose new keys are inserted at the end of the iteration order. -/
def assocUpsert {β : Type} (k : List Char) (f : β → β) (d : β) :
    List (List Char × β) → List (List Char × β)
  | [] => [(k, f d)]
  | (k1, v) :: l => if k = k1 then (k1, f v) :: l else (k1, v) :: assocUpsert k f d l

/-- Stable insert for descending sort: `a` is placed before the first element
`b` with `le b a` (key of `b` ≤ key of `a`), hence after every strictly
greater element and after no equal one that was originally earlier. -/
def insD {α : Type} (le : α → α → Bool) (a : α) : List α → List α
  | [] => [a]
  | b :: l => if le b a then a :: b :: l else b :: insD le a l

/-- Stable descending insertion sort; embeds Python
`sorted(..., key=..., reverse=True)` / `list.sort(key=..., reverse=True)`,
which are stable descending sorts. -/
def sortD {α : Type} (le : α → α → Bool) : List α → List α
  | [] => []
  | a :: l => insD le a (sortD le l)

theorem insD_perm {α : Type} (le : α → α → Bool) (a : α) (l : List α) :
    List.Perm (insD le a l) (a :: l) := by
  induction l with
  | nil => simp [insD]
  | cons b l ih =>
    simp only [insD]
    by_cases h : le b a = true
    · simp [h]
    · simp only [h, if_false]
      exact List.Perm.trans (List.Perm.cons b ih) (List.Perm.swap a b l)

theorem sortD_perm {α : Type} (le : α → α → Bool) (l : List α) :
    List.Perm (sortD le l) l := by
  induction l with
  | nil => simp [sortD]
  | cons a l ih =>
    exact List.Perm.trans (insD_perm le a (sortD le l)) (List.Perm.cons a ih)

theorem mem_sortD {α : Type} {le : α → α → Bool} {a : α} {l : List α} :
    a ∈ sortD le l ↔ a ∈ l :=
  (sortD_perm le l).mem_iff

theorem insD_pairwise {α : Type} (le : α → α → Bool)
    (htot : ∀ a b, le a b = true ∨ le b a = true)
    (htr : ∀ a b c, le a b = true → le b c = true → le a c = true)
    (a : α) (s : List α)
    (hs : List.Pairwise (fun x y => le y x = true) s) :
    List.Pairwise (fun x y => le y x = true) (insD le a s) := by
  induction s with
  | nil => simp [insD]
  | cons b s ih =>
    rcases List.pairwise_cons.mp hs with ⟨hb, hs2⟩
    by_cases h : le b a = true
    · simp only [insD, h, if_true]
      refine List.pairwise_cons.mpr ⟨?_, hs⟩
      intro x hx
      rcases List.mem_cons.mp hx with hx1 | hx1
      · subst hx1; exact h
      · exact htr _ _ _ (hb x hx1) h
    · simp only [insD, h, if_false]
      refine List.pairwise_cons.mpr ⟨?_, ih hs2⟩
      intro x hx
      rcases List.mem_cons.mp ((insD_perm le a s).mem_iff.mp hx) with hx1 | hx1
      · rcases htot a b with hab | hba
        · exact hx1 ▸ hab
        · exact absurd hba h
      · exact hb x hx1

theorem sortD_pairwise {α : Type} (le : α → α → Bool)
    (htot : ∀ a b, le a b = true ∨ le b a = true)
    (htr : ∀ a b c, le a b = true → le b c = true → le a c = true)
    (l : List α) :
    List.Pairwise (fun a b => le b a = true) (sortD le l) := by
  induction l with
  | nil => simp [sortD]
  | cons a l ih =>
    exact insD_pairwise le htot htr a (sortD le l) ih

/-- Inserting puts the element at the head when every element of the list
already has a key ≤ the inserted key. -/
theorem insD_head {α : Type} (le : α → α → Bool) (a : α) (l : List α)
    (h : ∀ x ∈ l, le x a = true) : insD le a l = a :: l := by
  cases l with
  | nil => rfl
  | cons b l => simp [insD, h b (by simp)]

/-- A list that is already pairwise descending is fixed by `sortD`. -/
theorem sortD_of_pairwise {α : Type} (le : α → α → Bool) (l : List α)
    (h : List.Pairwise (fun a b => le b a = true) l) : sortD le l = l := by
  induction l with
  | nil => rfl
  | cons a l ih =>
    rcases List.pairwise_cons.mp h with ⟨ha, hl⟩
    simp only [sortD, ih hl]
    cases l with
    | nil => rfl
    | cons b l => simp [insD, ha b (by simp)]

/-- One suffix/ending rule. This is the merged shape of the per-suffix dicts
of `initialize_suffix_database`: noun rules populate `cases`, `numbers`,
`genders`, `must_precede`, `blocks`; verb rules populate `person`, `number`,
`tense`. A missing Python key is the empty list / `none`, matching the
falsy-`.get` accesses of the source. -/
structure SuffixInfo where
  cases : List String
  numbers : List String
  genders : List String
  must_precede : List Char
  blocks : List (List Char)
  priority : ℕ
  confidence : ℚ
  person : Option String
  number : Option String
  tense : Option String
deriving DecidableEq

/-- Builds a noun rule of `self.noun_suffixes`. -/
def nInfo (cs ns gs : List String) (mp : List Char) (bl : List String)
    (pri : ℕ) (conf : ℚ) : SuffixInfo :=
  { cases := cs, numbers := ns, genders := gs, must_precede := mp,
    blocks := bl.map String.toList, priority := pri, confidence := conf,
    person := none, number := none, tense := none }

/-- Builds a verb rule of `self.verb_endings`. -/
def vInfo (p n t : String) (conf : ℚ) (pri : ℕ) : SuffixInfo :=
  { cases := [], numbers := [], genders := [], must_precede := [],
    blocks := [], priority := pri, confidence := conf,
    person := some p, number := some n, tense := some t }

/-- The `self.noun_suffixes` table of `initialize_suffix_database`, in dict
insertion order; `ā` `ī` `ū` are the IAST codepoints used verbatim by the
source. -/
def nounSuffixes : List (List Char × SuffixInfo) :=
  [ ("hinto".toList, nInfo ["ablative"] ["singular", "plural"]
      ["masculine", "feminine", "neuter"] ['ā', 'ī', 'ū', 'e']
      ["o", "to", "into"] 5 0.95),
    ("hiMto".toList, nInfo ["ablative"] ["singular", "plural"]
      ["masculine", "feminine", "neuter"] ['ā', 'ī', 'ū', 'e']
      ["o", "to", "iMto", "into"] 5 0.95),
    ("sunto".toList, nInfo ["ablative"] ["plural"]
      ["masculine", "feminine", "neuter"] ['ā', 'ī', 'ū', 'e']
      ["o", "to", "unto"] 5 0.95),
    ("suMto".toList, nInfo ["ablative"] ["plural"]
      ["masculine", "feminine", "neuter"] ['ā', 'ī', 'ū', 'e']
      ["o", "to", "uMto", "unto"] 5 0.95),
    ("hiM".toList, nInfo ["instrumental"] ["plural"]
      ["masculine", "feminine", "neuter"] ['ā', 'ī', 'ū', 'e']
      ["M", "iM"] 3 0.85),
    ("hi~".toList, nInfo ["instrumental"] ["plural"]
      ["masculine", "feminine", "neuter"] ['ā', 'ī', 'ū', 'e']
      ["~", "i~"] 3 0.85),
    ("ssa".toList, nInfo ["dative", "genitive"] ["singular"]
      ["masculine", "neuter"] ['a', 'i', 'u'] ["a", "sa"] 3 0.9),
    ("mmi".toList, nInfo ["locative"] ["singular"]
      ["masculine", "neuter"] ['a', 'i', 'u'] ["i", "mi"] 3 0.9),
    ("tto".toList, nInfo ["ablative"] ["singular", "plural"]
      ["masculine", "feminine", "neuter"] ['a', 'i', 'u', 'ā', 'ī', 'ū']
      ["o", "to"] 3 0.85),
    ("suM".toList, nInfo ["locative"] ["plural"]
      ["masculine", "feminine", "neuter"] ['ā', 'ī', 'ū', 'e']
      ["M", "uM"] 3 0.85),
    ("NaM".toList, nInfo ["dative", "genitive"] ["plural"]
      ["masculine", "feminine", "neuter"] ['ā', 'ī', 'ū', 'e']
      ["M", "aM"] 3 0.90),
    ("iM".toList, nInfo ["nominative", "accusative"] ["plural"]
      ["neuter"] ['ā', 'ī', 'ū'] ["M"] 2 0.85),
    ("i~".toList, nInfo ["nominative", "accusative"] ["plural"]
      ["neuter"] ['ā', 'ī', 'ū'] ["~"] 2 0.8),
    ("hi".toList, nInfo ["instrumental"] ["plural"]
      ["masculine", "feminine", "neuter"] ['ā', 'ī', 'ū', 'e']
      ["i"] 2 0.85),
    ("su".toList, nInfo ["locative"] ["plural"]
      ["masculine", "feminine", "neuter"] ['ā', 'ī', 'ū', 'e']
      ["u"] 2 0.85),
    ("Na".toList, nInfo ["dative", "genitive"] ["plural"]
      ["masculine", "feminine", "neuter"] ['ā', 'ī', 'ū', 'e']
      ["a"] 2 0.90),
    ("No".toList, nInfo ["nominative", "accusative", "dative", "genitive"]
      ["plural (nom/acc)", "singular (dat/gen)"] ["masculine"]
      ['i', 'u'] ["o"] 2 0.75),
    ("Ni".toList, nInfo ["nominative", "accusative"] ["plural"]
      ["neuter"] ['ā', 'ī', 'ū'] ["i"] 2 0.8),
    ("M".toList, nInfo ["accusative", "nominative"] ["singular"]
      ["masculine", "feminine", "neuter"] [] [] 1 0.7),
    ("o".toList, nInfo ["nominative", "vocative", "ablative"]
      ["singular (nom/voc)", "plural (abl)"] ["masculine", "feminine"]
      [] [] 1 0.65),
    ("e".toList, nInfo ["nominative", "locative", "vocative"]
      ["singular", "plural"] ["masculine", "feminine"] [] [] 1 0.6),
    ("a".toList, nInfo ["nominative", "vocative", "instrumental"]
      ["singular", "plural"] ["feminine"] [] [] 1 0.5) ]

/-- The `self.verb_endings` table of `initialize_suffix_database`, in dict
insertion order. -/
def verbEndings : List (List Char × SuffixInfo) :=
  [ ("mi".toList, vInfo "first" "singular" "present" 0.95 2),
    ("si".toList, vInfo "second" "singular" "present" 0.95 2),
    ("se".toList, vInfo "second" "singular" "present" 0.85 2),
    ("di".toList, vInfo "third" "singular" "present" 0.95 2),
    ("ti".toList, vInfo "third" "singular" "present" 0.9 2),
    ("mo".toList, vInfo "first" "plural" "present" 0.95 2),
    ("mu".toList, vInfo "first" "plural" "present" 0.85 2),
    ("ma".toList, vInfo "first" "plural" "present" 0.85 2),
    ("ha".toList, vInfo "second" "plural" "present" 0.95 2),
    ("tha".toList, vInfo "second" "plural" "present" 0.9 3),
    ("nti".toList, vInfo "third" "plural" "present" 0.95 3),
    ("nte".toList, vInfo "third" "plural" "present" 0.85 3),
    ("Mti".toList, vInfo "third" "plural" "present" 0.9 3),
    ("Mte".toList, vInfo "third" "plural" "present" 0.85 3),
    ("himi".toList, vInfo "first" "singular" "future" 0.95 4),
    ("ssaM".toList, vInfo "first" "singular" "future" 0.95 4),
    ("hisi".toList, vInfo "second" "singular" "future" 0.95 4),
    ("himo".toList, vInfo "first" "plural" "future" 0.95 4),
    ("hinti".toList, vInfo "third" "plural" "future" 0.95 5),
    ("issanti".toList, vInfo "third" "plural" "future" 0.9 7),
    ("sI".toList, vInfo "all" "all" "past" 0.95 2),
    ("hI".toList, vInfo "all" "all" "past" 0.95 2),
    ("hIa".toList, vInfo "all" "all" "past" 0.85 3),
    ("Ia".toList, vInfo "all" "all" "past" 0.8 2),
    ("i".toList, vInfo "third" "singular" "present" 0.7 1),
    ("e".toList, vInfo "third" "singular" "present" 0.7 1) ]

/-- One match emitted by `find_suffix_matches`: the dict
`{suffix, base, info, priority}` built in the loop. -/
structure SMatch where
  suffix : List Char
  base : List Char
  info : SuffixInfo
  priority : ℕ
deriving DecidableEq

/-- Sort key order of `find_suffix_matches`:
`key=lambda x: (x[1].get('priority', 0), len(x[0]))` — lexicographic on
(priority, suffix length). `tblLe x y` says the key of `x` is ≤ the key
of `y`. -/
def tblLe (x y : List Char × SuffixInfo) : Bool :=
  decide (x.2.priority < y.2.priority ∨
    (x.2.priority = y.2.priority ∧ x.1.length ≤ y.1.length))

/-- Final sort key of `find_suffix_matches`, `key=lambda x: x['priority']`. -/
def mLe (x y : SMatch) : Bool :=
  decide (x.priority ≤ y.priority)

/-- The `must_precede` gate of `find_suffix_matches`: vacuously true when the
rule has no (or a falsy, i.e. empty) `must_precede` set, otherwise the
character immediately preceding the suffix boundary must be in the set (and
the base must be non-empty). -/
def precedeOk (mp : List Char) (base : List Char) : Bool :=
  if mp = [] then true
  else
    match base.getLast? with
    | none => false
    | some c => decide (c ∈ mp)

/-- The main loop of `find_suffix_matches` over the already sorted rule list,
threading the running `blocked_suffixes` set (embedded as a list, used only
through membership). -/
def emitM (w : List Char) : List (List Char × SuffixInfo) → List (List Char) →
    List SMatch
  | [], _ => []
  | (sfx, info) :: rest, blocked =>
    if sfx ∈ blocked then emitM w rest blocked
    else if decide (sfx <:+ w) then
      let base := if 0 < sfx.length then w.take (w.length - sfx.length) else w
      if precedeOk info.must_precede base then
        { suffix := sfx, base := base, info := info,
          priority := info.priority } :: emitM w rest (blocked ++ info.blocks)
      else emitM w rest blocked
    else emitM w rest blocked

/-- Embeds `find_suffix_matches(word, suffix_dict)`: sort the table by
(priority desc, suffix length desc), run the blocking loop, then re-sort
the matches by priority desc (both sorts stable). -/
def findSuffixMatches (w : List Char) (tbl : List (List Char × SuffixInfo)) :
    List SMatch :=
  sortD mLe (emitM w (sortD tblLe tbl) [])

/-- Python `s.endswith(c)` for a single character `c`, and membership of the
last character in a tuple of single-character alternatives; false on the
empty string. -/
def endsIn (l : List Char) (cs : List Char) : Bool :=
  match l.getLast? with
  | none => false
  | some c => decide (c ∈ cs)

/-- The `valid_endings` set of `is_valid_prakrit_stem`. -/
def validEndings : List Char :=
  ['a', 'ā', 'A', 'i', 'ī', 'I', 'u', 'ū', 'U', 'e', 'o', 'M', 'ṃ', '~']

/-- Embeds `is_valid_prakrit_stem`: non-empty and the last character is a
vowel (HK or IAST spelling) or a nasal marker. -/
def isValidPrakritStem (stem : List Char) : Bool :=
  if stem = [] ∨ stem.length < 1 then false
  else endsIn stem validEndings

/-- Embeds `reconstruct_noun_stem(base, suffix, gender)`. Branches that fall
through every `elif` of the source return `base` (the final `return base`). -/
def reconstructNounStem (base sfx : List Char) (gender : String) : List Char :=
  if base = [] then []
  else if sfx ∈ (["hinto", "hiMto", "sunto", "suMto", "hi", "hiM", "hi~",
      "su", "suM"].map String.toList) then
    if base.getLast? = some 'e' then base.dropLast ++ ['a']
    else if base.getLast? = some 'ā' then
      if gender = "feminine" then base else base.dropLast ++ ['a']
    else if base.getLast? = some 'ī' then
      if gender = "feminine" then base else base.dropLast ++ ['i']
    else if base.getLast? = some 'ū' then
      if gender = "feminine" then base else base.dropLast ++ ['u']
    else base
  else if sfx ∈ (["ssa", "mmi", "No"].map String.toList) then
    if endsIn base ['a', 'i', 'u'] then base else base ++ ['a']
  else if sfx ∈ (["Na", "NaM"].map String.toList) then
    if base.getLast? = some 'e' then base.dropLast ++ ['a']
    else if base.getLast? = some 'ā' then base.dropLast ++ ['a']
    else if base.getLast? = some 'ī' then base.dropLast ++ ['i']
    else if base.getLast? = some 'ū' then base.dropLast ++ ['u']
    else base
  else if sfx = "tto".toList then
    if endsIn base ['a', 'i', 'u', 'ā', 'ī', 'ū'] = false then base ++ ['a']
    else base
  else if sfx = "o".toList then base ++ ['a']
  else if sfx = "e".toList then base ++ ['a']
  else if sfx = "M".toList then base
  else base

/-- The sandhi-reversal rule labels of `apply_vowel_sandhi_reverse`:
`eLong` ↦ "e→ī sandhi", `eShort` ↦ "e→i sandhi", `oLong` ↦ "o→ū sandhi",
`oShort` ↦ "o→u sandhi", `aExt` ↦ "a→ā extension",
`plusV v` ↦ "vowel-ending +v". -/
inductive SandhiRule where
  | eLong
  | eShort
  | oLong
  | oShort
  | aExt
  | plusV (v : Char)
deriving DecidableEq

/-- Embeds `apply_vowel_sandhi_reverse(base)`: the list of
`(potential_root, sandhi_rule)` pairs, in append order of the source. -/
def applyVowelSandhiReverse (base : List Char) : List (List Char × SandhiRule) :=
  if base = [] then []
  else
    (if base.getLast? = some 'e' then
      [(base.dropLast ++ ['I'], SandhiRule.eLong),
       (base.dropLast ++ ['i'], SandhiRule.eShort)] else [])
    ++ (if base.getLast? = some 'o' then
      [(base.dropLast ++ ['U'], SandhiRule.oLong),
       (base.dropLast ++ ['u'], SandhiRule.oShort)] else [])
    ++ (if base.getLast? = some 'a' then
      [(base.dropLast ++ ['A'], SandhiRule.aExt)] else [])
    ++ (['A', 'I', 'U', 'a', 'i', 'u'].map
        (fun v => (base ++ [v], SandhiRule.plusV v)))

/-- The `notes` entries of the source, one constructor per message template:
`attestedVerbForm r` ↦ "Form attested for root r";
`nounEnded s c n` ↦ "Ending-based analysis: suffix s suggests c n";
`verbSandhi r rule` ↦ "Ending-based analysis: Root r found via vowel sandhi (rule)";
`verbDirect r` ↦ "Ending-based analysis: Root r found in verb list";
`verbGuess` ↦ "Ending-based analysis: Root not attested - guessed from form";
`fbBoost c t` ↦ "Confidence boosted by user feedback (c/t correct)";
`fbReduce c t` ↦ "Confidence reduced by user feedback (c/t correct)";
`naAttested s` ↦ "Form ... attested for stem s." (noun_analyzer);
`naHeuristic e` ↦ "Heuristic match for ending e." (noun_analyzer);
`naHiatus e` ↦ "Heuristic match for ending ye (hiatus y ...)" (noun_analyzer);
`naHiatusBoost f s` ↦ "Form without y (f) attested for stem s. ..." (noun_analyzer);
`naNoMatch` ↦ "No attested or heuristic match found." (noun_analyzer). -/
inductive Note where
  | attestedVerbForm (root : List Char)
  | nounEnded (sfx : List Char) (kase number : String)
  | verbSandhi (root : List Char) (rule : SandhiRule)
  | verbDirect (root : List Char)
  | verbGuess
  | fbBoost (correct total : ℕ)
  | fbReduce (correct total : ℕ)
  | naAttested (stem : List Char)
  | naHeuristic (ending : List Char)
  | naHiatus (ending : List Char)
  | naHiatusBoost (formNoY : List Char) (stem : List Char)
  | naNoMatch
deriving DecidableEq

/-- One analysis dict. A Python dict key that a given constructor does not
set is `none` / the default, mirroring the `.get` accesses of the source.
`kase` embeds the `case` key, `typ` the `type` key. The presentational
`devanagari` / `stem_devanagari` / `root_devanagari` / `dictionary` keys
added by the enrichment steps of `parse` are not modelled (they never feed
back into stems, sources or confidences). -/
structure Analysis where
  form : List Char := []
  stem : Option (List Char) := none
  root : Option (List Char) := none
  suffix : Option (List Char) := none
  ending : Option (List Char) := none
  gender : Option String := none
  kase : Option String := none
  number : Option String := none
  tense : Option String := none
  person : Option String := none
  typ : Option String := none
  source : String := ""
  confidence : ℚ := 0
  notes : List Note := []
deriving DecidableEq

/-- Grammar tags of one attested noun form in `all_noun_forms`; `none`
models a missing JSON key, read through `.get(key, 'unknown')`. -/
structure NounTags where
  gender : Option String := none
  kase : Option String := none
  number : Option String := none
deriving DecidableEq

/-- One `suffix_accuracy` counter pair. -/
structure SuffStat where
  correct : ℕ := 0
  incorrect : ℕ := 0
deriving DecidableEq

/-- One `form_corrections` entry (the timestamp is an opaque input). -/
structure Correction where
  correct_analysis : Analysis
  timestamp : ℕ
deriving DecidableEq

/-- The `self.feedback_data` store. -/
structure FeedbackData where
  form_corrections : List (List Char × List Correction) := []
  suffix_accuracy : List (List Char × SuffStat) := []
  total_feedback : ℕ := 0
deriving DecidableEq

/-- The loaded state of a `PrakritUnifiedParser`: the attested databases
(association lists in dict iteration order, verb form tables reduced to
their key sets since only `word in forms` is used on them), the feedback
store, and the external Devanagari→HK transliteration collaborator
(applied only to input containing Devanagari codepoints, as in the source;
`id` models the HAS_AKSHARAMUKHA = False fallback). -/
structure ParserState where
  verb_roots : List (List Char) := []
  all_verb_forms : List (List Char × List (List Char)) := []
  all_noun_forms : List (List Char × List (List Char × NounTags)) := []
  feedback : FeedbackData := {}
  dev2hk : List Char → List Char := id

/-- Python `x or y` over two optional strings, where the empty string is
falsy (`analysis.get('suffix') or analysis.get('ending')`). -/
def pyOr (x y : Option (List Char)) : Option (List Char) :=
  match x with
  | some s => if s = [] then y else some s
  | none => y

/-- Sort key of the two confidence sorts in `parse` /
`apply_learned_adjustments`: `key=lambda x: x.get('confidence', 0)`. -/
def confLe (x y : Analysis) : Bool :=
  decide (x.confidence ≤ y.confidence)

/-- The noun branch of `check_attested_form`: the first (stem, forms) entry
whose forms dict contains the word — a `return` inside the loop. -/
def findNounHit : List (List Char × List (List Char × NounTags)) → List Char →
    Option (List Char × NounTags)
  | [], _ => none
  | (stem, forms) :: rest, w =>
    match assocGet w forms with
    | some t => some (stem, t)
    | none => findNounHit rest w

/-- The analysis dict returned by `check_attested_form(word, 'noun')`. -/
def checkAttestedNounForm (db : List (List Char × List (List Char × NounTags)))
    (w : List Char) : Option Analysis :=
  (findNounHit db w).map (fun h =>
    { form := w, stem := some h.1,
      gender := some (h.2.gender.getD "unknown"),
      kase := some (h.2.kase.getD "unknown"),
      number := some (h.2.number.getD "unknown"),
      source := "attested_noun", confidence := 1 })

/-- The verb branch of `check_attested_form`: the first root whose forms
contain the word. -/
def findVerbRoot : List (List Char × List (List Char)) → List Char →
    Option (List Char)
  | [], _ => none
  | (root, forms) :: rest, w =>
    if w ∈ forms then some root else findVerbRoot rest w

/-- The analysis dict returned by `check_attested_form(word, 'verb')`. -/
def checkAttestedVerbForm (tbl : List (List Char × List (List Char)))
    (w : List Char) : Option Analysis :=
  (findVerbRoot tbl w).map (fun r =>
    { form := w, root := some r, source := "attested_verb", confidence := 1 })

/-- The stem-final-vowel boost test of `analyze_as_noun`:
`stem.endswith(('a', 'i', 'u', 'ā', 'ī', 'ū'))`. -/
def endsStemBoost (stem : List Char) : Bool :=
  endsIn stem ['a', 'i', 'u', 'ā', 'ī', 'ū']

/-- The analysis dict appended by the innermost loop of `analyze_as_noun`,
with its `min(confidence, 1.0)` cap and stem-final-vowel boost. -/
def mkNounGuess (w : List Char) (m : SMatch) (stem : List Char)
    (g c n : String) : Analysis :=
  { form := w, stem := some stem, suffix := some m.suffix,
    kase := some c, number := some n, gender := some g,
    typ := some "noun", source := "ending_based_guess",
    confidence := qmin (if endsStemBoost stem then m.info.confidence + 0.05
      else m.info.confidence) 1,
    notes := [Note.nounEnded m.suffix c n] }

/-- The stem gate and (case, number) loops of `analyze_as_noun` for one
gender, applied to the already reconstructed stem. -/
def nounGuessesChecked (w : List Char) (m : SMatch) (g : String)
    (stem : List Char) : List Analysis :=
  if stem = [] ∨ stem.length < 2 then []
  else if isValidPrakritStem stem = false then []
  else
    m.info.cases.flatMap (fun c =>
      m.info.numbers.map (fun n => mkNounGuess w m stem g c n))

/-- The per-gender body of the `analyze_as_noun` loop: reconstruct the stem,
drop it if shorter than 2 characters or phonologically invalid, else emit
one analysis per (case, number). -/
def nounAnalysesOfGender (w : List Char) (m : SMatch) (g : String) :
    List Analysis :=
  nounGuessesChecked w m g (reconstructNounStem m.base m.suffix g)

/-- The inner loops of `analyze_as_noun` for one suffix match. -/
def nounAnalysesOfMatch (w : List Char) (m : SMatch) : List Analysis :=
  m.info.genders.flatMap (nounAnalysesOfGender w m)

/-- Embeds `analyze_as_noun(word_hk)`. -/
def analyzeAsNoun (p : ParserState) (w : List Char) : List Analysis :=
  match checkAttestedNounForm p.all_noun_forms w with
  | some att => [att]
  | none =>
    ((findSuffixMatches w nounSuffixes).take 10).flatMap (nounAnalysesOfMatch w)

/-- The `method` tag of one root candidate in `analyze_as_verb`. -/
inductive RMethod where
  | direct
  | sandhi
  | sandhiPart
  | guess
deriving DecidableEq

/-- One root-candidate dict of `analyze_as_verb`. -/
structure RootCand where
  root : List Char
  method : RMethod
  note : Option SandhiRule
  boost : ℚ
deriving DecidableEq

/-- Python `range(n, 0, -1)`. -/
def rangeDesc (n : ℕ) : List ℕ :=
  (List.range n).reverse.map (· + 1)

/-- Strategy 1 of `analyze_as_verb`: direct prefix matches of the base
against the verb-root list, longest prefix first. -/
def directRoots (roots : List (List Char)) (base : List Char) : List RootCand :=
  (rangeDesc base.length).filterMap (fun i =>
    if base.take i ∈ roots then
      some { root := base.take i, method := RMethod.direct, note := none,
             boost := 0.15 }
    else none)

/-- Strategy 2 of `analyze_as_verb`: sandhi-reversed candidates — for every
generated alternative, the full alternative if it is a known root (boost
0.20), then every prefix of the alternative that is a known root (boost
0.12, labelled partial), longest first. -/
def sandhiRoots (roots : List (List Char)) (base : List Char) : List RootCand :=
  (applyVowelSandhiReverse base).flatMap (fun cr =>
    (if cr.1 ∈ roots then
      [{ root := cr.1, method := RMethod.sandhi, note := some cr.2,
         boost := 0.20 : RootCand }]
     else [])
    ++ (rangeDesc cr.1.length).filterMap (fun i =>
        if cr.1.take i ∈ roots then
          some { root := cr.1.take i, method := RMethod.sandhiPart,
                 note := some cr.2, boost := 0.12 }
        else none))

/-- The analysis dict built for one (ending match, root candidate) pair in
`analyze_as_verb`, including its source/note selection and the
`min(max(confidence, 0.1), 1.0)` clamp. -/
def verbAnalysisOfCand (w : List Char) (m : SMatch) (c : RootCand) : Analysis :=
  let conf := m.info.confidence + c.boost
  let srcNote : String × Note :=
    match c.note with
    | some rule => ("sandhi_analysis", Note.verbSandhi c.root rule)
    | none =>
      match c.method with
      | RMethod.direct => ("ending_based_guess", Note.verbDirect c.root)
      | _ => ("ending_based_guess", Note.verbGuess)
  { form := w, root := some c.root, ending := some m.suffix,
    tense := m.info.tense, person := m.info.person, number := m.info.number,
    typ := some "verb", source := srcNote.1,
    confidence := qmin (qmax conf 0.1) 1,
    notes := [srcNote.2] }

/-- The collected `root_candidates` of `analyze_as_verb` for one base:
both strategies, with the unattested-guess fallback (boost −0.1) only when
no candidate was found. -/
def verbCands (roots : List (List Char)) (base : List Char) : List RootCand :=
  if directRoots roots base ++ sandhiRoots roots base = [] then
    [{ root := base, method := RMethod.guess, note := none, boost := -0.1 }]
  else directRoots roots base ++ sandhiRoots roots base

/-- The per-ending-match body of `analyze_as_verb`: keep the phonologically
valid root candidates and build one analysis for each. -/
def verbAnalysesOfMatch (roots : List (List Char)) (w : List Char)
    (m : SMatch) : List Analysis :=
  (verbCands roots m.base).filterMap (fun c =>
    if isValidPrakritStem c.root then some (verbAnalysisOfCand w m c)
    else none)

/-- The analysis dict built in the attested branch of `analyze_as_verb`. -/
def attestedVerbAnalysis (w root : List Char) : Analysis :=
  { form := w, root := some root, typ := some "verb",
    source := "attested_verb", confidence := 1,
    notes := [Note.attestedVerbForm root] }

/-- Embeds `analyze_as_verb(word_hk)`. -/
def analyzeAsVerb (p : ParserState) (w : List Char) : List Analysis :=
  match findVerbRoot p.all_verb_forms w with
  | some root => [attestedVerbAnalysis w root]
  | none =>
    ((findSuffixMatches w verbEndings).take 10).flatMap
      (verbAnalysesOfMatch p.verb_roots w)

/-- The `accuracy = correct / total` computed by
`apply_learned_adjustments` (total = correct + incorrect). -/
def accuracyOf (st : SuffStat) : ℚ :=
  ((st.correct : ℕ) : ℚ) / (((st.correct + st.incorrect : ℕ)) : ℚ)

/-- The `if total > 0` body of `apply_learned_adjustments` for the found
statistics: boost by 0.10 (capped at 1.0) when accuracy > 0.8 with ≥ 3
correct, reduce by 0.15 (floored at 0.1) when accuracy < 0.3 with ≥ 3
observations. The local `total` of the source is
`st.correct + st.incorrect`. -/
def adjustWithStat (st : SuffStat) (a : Analysis) : Analysis :=
  if 0 < st.correct + st.incorrect then
    if 0.8 < accuracyOf st ∧ 3 ≤ st.correct then
      { a with confidence := qmin 1 (a.confidence + 0.10),
               notes := a.notes ++
                 [Note.fbBoost st.correct (st.correct + st.incorrect)] }
    else if accuracyOf st < 0.3 ∧ 3 ≤ st.correct + st.incorrect then
      { a with confidence := qmax 0.1 (a.confidence - 0.15),
               notes := a.notes ++
                 [Note.fbReduce st.correct (st.correct + st.incorrect)] }
    else a
  else a

/-- The statistics lookup `if suffix in self.feedback_data['suffix_accuracy']`
of `apply_learned_adjustments`. -/
def adjustWithSuffix (fb : FeedbackData) (sfx : List Char) (a : Analysis) :
    Analysis :=
  match assocGet sfx fb.suffix_accuracy with
  | none => a
  | some st => adjustWithStat st a

/-- The per-analysis body of `apply_learned_adjustments`
(`suffix = analysis.get('suffix') or analysis.get('ending')`). -/
def adjustOne (fb : FeedbackData) (a : Analysis) : Analysis :=
  match pyOr a.suffix a.ending with
  | none => a
  | some sfx => adjustWithSuffix fb sfx a

/-- Embeds `apply_learned_adjustments`: adjust every analysis in place, then
re-sort by confidence descending (stable). -/
def applyLearned (fb : FeedbackData) (l : List Analysis) : List Analysis :=
  sortD confLe (l.map (adjustOne fb))

/-- Result dict of `record_feedback`. -/
structure RFResult where
  success : Bool
  message : Option String := none
  error : Option String := none
  total_feedback : Option ℕ := none
deriving DecidableEq

/-- Embeds `record_feedback(word, correct_analysis, all_analyses)` plus the
outcome of `save_feedback_data` as the boolean `saveOk`. The in-memory
feedback store is mutated (correction appended, counters incremented)
before the save is attempted, exactly as in the source; the save outcome
only selects the returned status dict. -/
def recordFeedback (fb : FeedbackData) (word : List Char) (correct : Analysis)
    (allA : List Analysis) (ts : ℕ) (saveOk : Bool) :
    FeedbackData × RFResult :=
  let entry : Correction := { correct_analysis := correct, timestamp := ts }
  let fc1 := assocUpsert word (fun l => l ++ [entry]) [] fb.form_corrections
  let fb1 := { fb with form_corrections := fc1 }
  let fb2 :=
    match pyOr correct.suffix correct.ending with
    | none => fb1
    | some cs =>
      let sa1 := assocUpsert cs
        (fun st : SuffStat => { st with correct := st.correct + 1 })
        ({} : SuffStat) fb1.suffix_accuracy
      let fbA := { fb1 with suffix_accuracy := sa1 }
      allA.foldl (fun acc a =>
        if a = correct then acc
        else
          match pyOr a.suffix a.ending with
          | none => acc
          | some os =>
            let sa2 := assocUpsert os
              (fun st : SuffStat => { st with incorrect := st.incorrect + 1 })
              ({} : SuffStat) acc.suffix_accuracy
            { acc with suffix_accuracy := sa2 }) fbA
  let fb3 := { fb2 with total_feedback := fb2.total_feedback + 1 }
  if saveOk then
    (fb3, { success := true,
            message := some "Feedback recorded successfully",
            total_feedback := some fb3.total_feedback })
  else
    (fb3, { success := false, error := some "Failed to save feedback" })

/-- The character class of the anusvara-normalization regex in
`normalize_input`; note it contains the IAST retroflexes `ṭ` `ḍ`, not the
HK capitals. -/
def anuClass : List Char :=
  ['k', 'g', 'c', 'j', 'ṭ', 'ḍ', 't', 'd', 'n', 'p', 'b', 'm', 'y', 'r',
   'l', 'v', 's', 'z', 'h']

/-- Embeds `re.sub(r'M(?=[kgcjṭḍtdnpbmyrlvszh])', 'n', text)`: every `M`
directly followed by a class character becomes `n` (the lookahead does not
consume the following character). -/
def anuNorm : List Char → List Char
  | [] => []
  | 'M' :: c :: rest =>
    if c ∈ anuClass then 'n' :: anuNorm (c :: rest)
    else 'M' :: anuNorm (c :: rest)
  | c :: rest => c :: anuNorm rest

/-- ASCII whitespace for `str.strip()` (the source never feeds the exotic
unicode whitespace codepoints that Python would additionally strip). -/
def isPySpace (c : Char) : Bool :=
  c ∈ [' ', '\t', '\n', '\r', '\x0b', '\x0c']

/-- Python `text.strip()`. -/
def pyStrip (l : List Char) : List Char :=
  ((l.dropWhile isPySpace).reverse.dropWhile isPySpace).reverse

/-- Embeds `normalize_input`: strip, then anusvara normalization. -/
def normalizeInput (t : List Char) : List Char :=
  anuNorm (pyStrip t)

/-- Embeds `detect_script`: any codepoint in the Devanagari block. -/
def detectDevanagari (t : List Char) : Bool :=
  t.any (fun c => decide (0x900 ≤ c.toNat ∧ c.toNat ≤ 0x97F))

/-- Embeds `transliterate_to_hk`: the external collaborator is applied only
to Devanagari input; HK input is returned unchanged. -/
def transHk (p : ParserState) (t : List Char) : List Char :=
  if detectDevanagari t then p.dev2hk t else t

/-- The forbidden patterns of `validate_prakrit_characters`, in dict order,
with their descriptions. -/
def forbiddenPatterns : List (List Char × String) :=
  [("R".toList, "retroflex R"),
   ("RR".toList, "long retroflex R"),
   ("lR".toList, "vocalic L"),
   ("lRR".toList, "long vocalic L"),
   ("H".toList, "visarga (ः)"),
   ("S".toList, "retroflex S (ष)")]

/-- The loop of `validate_prakrit_characters`: the first forbidden pattern
occurring in the HK text, if any (its message interpolates the pattern and
description). -/
def firstForbidden (hk : List Char) : Option (List Char × String) :=
  forbiddenPatterns.find? (fun pr => hasInfix pr.1 hk)

/-- Result dict of `parse`; on failure only `success`, `error` and
`suggestions` are populated, as in the source. -/
structure ParseResult where
  success : Bool
  error : Option (List Char × String) := none
  suggestions : List String := []
  original_form : List Char := []
  hk_form : List Char := []
  script : String := ""
  analyses : List Analysis := []
  total_found : ℕ := 0

/-- The `word_hk` computed by `parse`:
`transliterate_to_hk(normalize_input(text))`. -/
def wordHk (p : ParserState) (t : List Char) : List Char :=
  transHk p (normalizeInput t)

/-- The analysis stages of `parse` on the normalized word: analyze as noun
and as verb, concatenate, sort by confidence descending, then apply the
feedback adjustment pass (which re-sorts). -/
def parsePipeline (p : ParserState) (w : List Char) : List Analysis :=
  applyLearned p.feedback (sortD confLe (analyzeAsNoun p w ++ analyzeAsVerb p w))

/-- Embeds `parse(text)`: validate, normalize/transliterate, analyze as noun
and as verb, merge, sort by confidence, apply feedback adjustments, return
the top 15 plus the total count. -/
def parse (p : ParserState) (t : List Char) : ParseResult :=
  match firstForbidden (transHk p t) with
  | some pr =>
    { success := false, error := some pr,
      suggestions := ["Check input for forbidden characters",
                      "Use proper Prakrit transliteration"] }
  | none =>
    { success := true, original_form := t, hk_form := wordHk p t,
      script := if detectDevanagari t then "Devanagari" else "HK",
      analyses := (parsePipeline p (wordHk p t)).take 15,
      total_found := (parsePipeline p (wordHk p t)).length }

/-- The `endings` list of `analyze_noun_form` (noun_analyzer.py), in source
order. -/
def naEndings : List (List Char) :=
  ["M", "m", "iM", "im", "i~", "Ni", "ni", "Na", "na", "NaM", "nam", "hi",
   "him", "hi~", "su", "sum", "suM", "tto", "o", "u", "e", "A"].map
    String.toList

/-- The `case_map` dict of `analyze_noun_form`. -/
def naCaseMap : List (List Char × String) :=
  [("M".toList, "nominative/accusative singular"),
   ("iM".toList, "nominative/accusative plural"),
   ("i~".toList, "nominative/accusative plural"),
   ("Ni".toList, "nominative/accusative plural"),
   ("Na".toList, "instrumental singular"),
   ("NaM".toList, "instrumental plural"),
   ("hi".toList, "locative singular"),
   ("hiM".toList, "locative plural"),
   ("hi~".toList, "locative plural"),
   ("su".toList, "locative plural"),
   ("suM".toList, "locative plural"),
   ("tto".toList, "ablative singular"),
   ("o".toList, "vocative"),
   ("u".toList, "vocative"),
   ("e".toList, "vocative"),
   ("A".toList, "vocative")]

/-- The case lookup `case_map.get(ending.replace('m', 'M'), 'unknown')`. -/
def naCaseOf (ending : List Char) : String :=
  (assocGet (ending.map (fun c => if c = 'm' then 'M' else c)) naCaseMap).getD
    "unknown"

/-- The gender guess of `analyze_noun_form` for an ending string (the same
if-chain is reused by the fallback branch on the last character). -/
def naGenderOf (ending : List Char) : String :=
  if ending ∈ (["a", "A", "i", "I", "u", "U"].map String.toList) then
    if ending = "a".toList ∨ ending = "A".toList then "masculine/neuter"
    else if ending ∈ (["i", "I"].map String.toList) then "feminine"
    else if ending ∈ (["u", "U"].map String.toList) then "masculine"
    else "unknown"
  else "unknown"

/-- Step 1 of `analyze_noun_form`: one attested candidate per (stem, forms)
entry of `all_noun_forms` whose forms contain the word — every matching
stem is collected, in database order. -/
def naAttestedMatches (db : List (List Char × List (List Char × NounTags)))
    (hk : List Char) : List Analysis :=
  db.filterMap (fun e =>
    (assocGet hk e.2).map (fun t =>
      { form := hk, stem := some e.1,
        gender := some (t.gender.getD "unknown"),
        kase := some (t.kase.getD "unknown"),
        number := some (t.number.getD "unknown"),
        source := "attested in all_noun_forms.json",
        confidence := 1,
        notes := [Note.naAttested e.1] }))

/-- The direct-ending heuristic branch of `analyze_noun_form` for one
ending. -/
def naDirect (hk ending : List Char) : List Analysis :=
  if decide (ending <:+ hk) then
    let ps := hk.take (hk.length - ending.length)
    [{ form := hk,
       stem := some (if ps = [] then "unknown".toList else ps),
       gender := some (naGenderOf ending),
       kase := some (naCaseOf ending),
       number := some "unknown",
       source := "heuristic", confidence := 0.5,
       notes := [Note.naHeuristic ending] }]
  else []

/-- The hiatus branch of `analyze_noun_form` for one ending: the word ends
in `'y' + ending`, the character at index `-len(ending)-1` (which is that
very `y`) must be a vowel — so the branch never fires on any input; it is
embedded verbatim nonetheless. -/
def naHiatusCand (db : List (List Char × List (List Char × NounTags)))
    (hk ending : List Char) : List Analysis :=
  if decide (('y' :: ending) <:+ hk) then
    if ending.length + 1 < hk.length then
      let idxPos := hk.length - (ending.length + 1)
      let prev := hk.getD idxPos ' '
      let firstc := ending.headD ' '
      if prev ∈ "aeiouAEIOU".toList ∧ firstc ∈ "aeiouAEIOU".toList then
        let ps := hk.take idxPos
        let formNoY := hk.take idxPos ++ ending
        let base : Analysis :=
          { form := hk,
            stem := some (if ps = [] then "unknown".toList else ps),
            gender := some "unknown",
            kase := some (naCaseOf ending),
            number := some "unknown",
            source := "heuristic (hiatus y)", confidence := 0.4,
            notes := [Note.naHiatus ending] }
        match findNounHit db formNoY with
        | some h =>
          [{ base with confidence := 0.8,
                       stem := some h.1,
                       gender := some (h.2.gender.getD "unknown"),
                       kase := some (h.2.kase.getD "unknown"),
                       number := some (h.2.number.getD "unknown"),
                       notes := base.notes
                         ++ [Note.naHiatusBoost formNoY h.1] }]
        | none => [base]
      else []
    else []
  else []

/-- The no-match fallback candidate of `analyze_noun_form` (confidence
0.2). -/
def naFallback (hk : List Char) : Analysis :=
  let ending := match hk.getLast? with | some c => [c] | none => []
  { form := hk, stem := some "unknown".toList,
    gender := some (naGenderOf ending),
    kase := some "unknown", number := some "unknown",
    source := "heuristic", confidence := 0.2,
    notes := [Note.naNoMatch] }

/-- The full `possible_matches` list of `analyze_noun_form` before the
fallback: attested matches first, then per ending the direct and hiatus
candidates. -/
def naCandidates (db : List (List Char × List (List Char × NounTags)))
    (hk : List Char) : List Analysis :=
  naAttestedMatches db hk
    ++ naEndings.flatMap (fun e => naDirect hk e ++ naHiatusCand db hk e)

/-- The `if not possible_matches` fallback of `analyze_noun_form`. -/
def naWithFallback (db : List (List Char × List (List Char × NounTags)))
    (hk : List Char) : List Analysis :=
  if naCandidates db hk = [] then [naFallback hk] else naCandidates db hk

/-- The `hk_word` of `analyze_noun_form`, with the transliteration
collaborator as the parameter `f` (applied only to Devanagari input, as in
the source). -/
def naHkOf (f : List Char → List Char) (word : List Char) : List Char :=
  if detectDevanagari word then f word else word

/-- Embeds `analyze_noun_form(word)` of noun_analyzer.py: all candidates
(or the fallback), sorted by confidence descending. -/
def analyzeNounForm (db : List (List Char × List (List Char × NounTags)))
    (f : List Char → List Char) (word : List Char) : List Analysis :=
  sortD confLe (naWithFallback db (naHkOf f word))

/-- Counting over a flatMap is the sum of the per-element counts. -/
theorem countP_flatMap {α β : Type} (p : β → Bool) (f : α → List β)
    (l : List α) :
    (l.flatMap f).countP p = (l.map (fun x => (f x).countP p)).sum := by
  induction l with
  | nil => simp
  | cons a l ih => simp [List.flatMap_cons, List.countP_append, ih]

/-- Summing per-element bounds where at most one element may contribute a
nonzero bound. -/
theorem sum_le_of_single {α : Type} (l : List α) (g : α → ℕ) (q : α → Bool)
    (n : ℕ) (hb : ∀ x ∈ l, g x ≤ if q x then n else 0)
    (hc : l.countP q ≤ 1) : (l.map g).sum ≤ n := by
  induction l with
  | nil => simp
  | cons a l ih =>
    simp only [List.map_cons, List.sum_cons]
    have hcc := List.countP_cons q a l
    by_cases hqa : q a = true
    · have hcnt : l.countP q = 0 := by
        rw [hcc] at hc
        simp only [hqa, if_true] at hc
        omega
      have hzero : ∀ x ∈ l, g x = 0 := by
        intro x hx
        have hqx := List.countP_eq_zero.mp hcnt x hx
        have hbx := hb x (List.mem_cons_of_mem a hx)
        simp only [Bool.not_eq_true] at hqx
        simp [hqx] at hbx
        omega
      have hsum : (l.map g).sum = 0 := by
        apply List.sum_eq_zero
        intro x hx
        rcases List.mem_map.mp hx with ⟨y, hy, hxy⟩
        rw [← hxy]; exact hzero y hy
      have hga := hb a (List.mem_cons_self a l)
      simp only [hqa, if_true] at hga
      omega
    · have hga := hb a (List.mem_cons_self a l)
      simp only [Bool.not_eq_true] at hqa
      simp [hqa] at hga
      have hc2 : l.countP q ≤ 1 := by
        rw [hcc] at hc
        simp [hqa] at hc
        omega
      have := ih (fun x hx => hb x (List.mem_cons_of_mem a hx)) hc2
      omega

/-- A list whose key projection has no duplicates contains at most one
element satisfying a predicate that forces equal keys. -/
theorem countP_le_one_of_key {α κ : Type} (l : List α) (f : α → κ)
    (q : α → Bool) (hnd : (l.map f).Nodup)
    (hs : ∀ x ∈ l, q x = true → ∀ y ∈ l, q y = true → f x = f y) :
    l.countP q ≤ 1 := by
  induction l with
  | nil => simp
  | cons a l ih =>
    simp only [List.map_cons, List.nodup_cons] at hnd
    rcases hnd with ⟨hfa, hnd⟩
    rw [List.countP_cons]
    by_cases hqa : q a = true
    · have hcnt : l.countP q = 0 := by
        rw [List.countP_eq_zero]
        intro y hy hqy
        refine hfa ?_
        have heq := hs a (List.mem_cons_self a l) hqa y
          (List.mem_cons_of_mem a hy) hqy
        rw [heq]
        exact List.mem_map_of_mem f hy
      simp [hqa, hcnt]
    · have hrec := ih hnd (fun x hx hqx y hy hqy =>
        hs x (List.mem_cons_of_mem a hx) hqx y (List.mem_cons_of_mem a hy) hqy)
      simp [hqa]
      omega

/-- Searching past a prefix on which the predicate is everywhere false. -/
theorem find?_append_of_none {α : Type} (p : α → Bool) (P l : List α)
    (h : ∀ x ∈ P, p x = false) :
    List.find? p (P ++ l) = List.find? p l := by
  induction P with
  | nil => rfl
  | cons a P ih =>
    rw [List.cons_append, List.find?_cons_of_neg _ (by simp [h a (by simp)])]
    exact ih (fun x hx => h x (List.mem_cons_of_mem a hx))

/-- On an association list with pairwise distinct keys, lookup of a present
binding returns exactly its value. -/
theorem assocGet_of_mem_nodup {β : Type} (l : List (List Char × β))
    (k : List Char) (v : β) (hnd : (l.map Prod.fst).Nodup)
    (hm : (k, v) ∈ l) : assocGet k l = some v := by
  induction l with
  | nil => cases hm
  | cons e l ih =>
    simp only [List.map_cons, List.nodup_cons] at hnd
    rcases hnd with ⟨he, hnd⟩
    obtain ⟨k1, v1⟩ := e
    rcases List.mem_cons.mp hm with h1 | h1
    · injection h1 with hk hv
      subst hk
      subst hv
      simp [assocGet]
    · have hne : k ≠ k1 := by
        intro hk
        apply he
        rw [← hk]
        have hmem : (k, v).1 ∈ List.map Prod.fst l :=
          List.mem_map_of_mem Prod.fst h1
        exact hmem
      rw [show assocGet k ((k1, v1) :: l) =
        if k = k1 then some v1 else assocGet k l from rfl]
      rw [if_neg hne]
      exact ih hnd h1

/-- Two suffixes of the same word with the same length are equal. -/
theorem suffix_eq_of_length {w s1 s2 : List Char} (h1 : s1 <:+ w)
    (h2 : s2 <:+ w) (hl : s1.length = s2.length) : s1 = s2 := by
  rw [List.suffix_iff_eq_drop] at h1 h2
  rw [h1, h2, hl]

/-- The `must_precede` gate, unfolded: when the set is non-empty the base
ends in one of its characters. -/
theorem precedeOk_spec {mp base : List Char} (h : precedeOk mp base = true)
    (hne : mp ≠ []) : ∃ c, base.getLast? = some c ∧ c ∈ mp := by
  unfold precedeOk at h
  rw [if_neg hne] at h
  cases hbl : base.getLast? with
  | none => rw [hbl] at h; cases h
  | some c => rw [hbl] at h; exact ⟨c, rfl, by simpa using h⟩

/-- Construction facts about every match emitted by the blocking loop: its
suffix is a literal suffix of the word, its base is the residue, its
priority is the rule priority, the `must_precede` gate passed, and its
suffix was not in the blocked-set handed to the loop. -/
theorem emitM_facts (w : List Char) :
    ∀ (tbl : List (List Char × SuffixInfo)) (blocked : List (List Char))
      (m : SMatch), m ∈ emitM w tbl blocked →
      (m.suffix <:+ w) ∧
      m.base = (if 0 < m.suffix.length then w.take (w.length - m.suffix.length)
        else w) ∧
      m.priority = m.info.priority ∧
      precedeOk m.info.must_precede m.base = true ∧
      m.suffix ∉ blocked := by
  intro tbl
  induction tbl with
  | nil => intro blocked m hm; simp [emitM] at hm
  | cons e rest ih =>
    intro blocked m hm
    obtain ⟨sfx, info⟩ := e
    simp only [emitM] at hm
    by_cases h1 : sfx ∈ blocked
    · rw [if_pos h1] at hm
      exact ih blocked m hm
    · rw [if_neg h1] at hm
      by_cases h2 : decide (sfx <:+ w) = true
      · rw [if_pos h2] at hm
        by_cases h3 : precedeOk info.must_precede
            (if 0 < sfx.length then w.take (w.length - sfx.length) else w) = true
        · rw [if_pos h3] at hm
          rcases List.mem_cons.mp hm with hh | hh
          · subst hh
            refine ⟨by simpa using h2, rfl, rfl, h3, h1⟩
          · have hrec := ih (blocked ++ info.blocks) m hh
            refine ⟨hrec.1, hrec.2.1, hrec.2.2.1, hrec.2.2.2.1, ?_⟩
            intro hmem
            exact hrec.2.2.2.2 (List.mem_append_left _ hmem)
        · rw [if_neg h3] at hm
          exact ih blocked m hm
      · rw [if_neg h2] at hm
        exact ih blocked m hm

/-- The pairs (suffix, rule) of the emitted matches form a sublist of the
iterated table: each table entry is used at most once, in table order. -/
theorem emitM_sublist (w : List Char) :
    ∀ (tbl : List (List Char × SuffixInfo)) (blocked : List (List Char)),
      ((emitM w tbl blocked).map (fun m => (m.suffix, m.info))).Sublist tbl := by
  intro tbl
  induction tbl with
  | nil => intro blocked; simp [emitM]
  | cons e rest ih =>
    intro blocked
    obtain ⟨sfx, info⟩ := e
    simp only [emitM]
    by_cases h1 : sfx ∈ blocked
    · rw [if_pos h1]; exact (ih blocked).cons _
    · rw [if_neg h1]
      by_cases h2 : decide (sfx <:+ w) = true
      · rw [if_pos h2]
        by_cases h3 : precedeOk info.must_precede
            (if 0 < sfx.length then w.take (w.length - sfx.length) else w) = true
        · rw [if_pos h3]
          simpa using (ih (blocked ++ info.blocks)).cons₂ (sfx, info)
        · rw [if_neg h3]; exact (ih blocked).cons _
      · rw [if_neg h2]; exact (ih blocked).cons _

/-- The blocking invariant along emission order: once a match is emitted,
no later match uses a suffix in its `blocks` set. -/
theorem emitM_blocks (w : List Char) :
    ∀ (tbl : List (List Char × SuffixInfo)) (blocked : List (List Char)),
      (emitM w tbl blocked).Pairwise
        (fun m1 m2 => m2.suffix ∉ m1.info.blocks) := by
  intro tbl
  induction tbl with
  | nil => intro blocked; simp [emitM]
  | cons e rest ih =>
    intro blocked
    obtain ⟨sfx, info⟩ := e
    simp only [emitM]
    by_cases h1 : sfx ∈ blocked
    · rw [if_pos h1]; exact ih blocked
    · rw [if_neg h1]
      by_cases h2 : decide (sfx <:+ w) = true
      · rw [if_pos h2]
        by_cases h3 : precedeOk info.must_precede
            (if 0 < sfx.length then w.take (w.length - sfx.length) else w) = true
        · rw [if_pos h3]
          refine List.pairwise_cons.mpr ⟨?_, ih (blocked ++ info.blocks)⟩
          intro m2 hm2
          have hf := emitM_facts w rest (blocked ++ info.blocks) m2 hm2
          intro hmem
          exact hf.2.2.2.2 (List.mem_append_right _ hmem)
        · rw [if_neg h3]; exact ih blocked
      · rw [if_neg h2]; exact ih blocked

theorem tblLe_total : ∀ a b, tblLe a b = true ∨ tblLe b a = true := by
  intro a b
  simp only [tblLe, decide_eq_true_eq]
  omega

theorem tblLe_trans :
    ∀ a b c, tblLe a b = true → tblLe b c = true → tblLe a c = true := by
  intro a b c
  simp only [tblLe, decide_eq_true_eq]
  omega

theorem confLe_total : ∀ a b, confLe a b = true ∨ confLe b a = true := by
  intro a b
  simp only [confLe, decide_eq_true_eq]
  exact le_total _ _

theorem confLe_trans :
    ∀ a b c, confLe a b = true → confLe b c = true → confLe a c = true := by
  intro a b c
  simp only [confLe, decide_eq_true_eq]
  exact le_trans

/-- The final priority sort of `find_suffix_matches` is the identity: the
emitted matches already descend in priority (they are picked in sorted
table order), so the stable re-sort keeps emission order. -/
theorem findSuffixMatches_eq (w : List Char)
    (tbl : List (List Char × SuffixInfo)) :
    findSuffixMatches w tbl = emitM w (sortD tblLe tbl) [] := by
  unfold findSuffixMatches
  apply sortD_of_pairwise
  have hsorted : (sortD tblLe tbl).Pairwise (fun a b => tblLe b a = true) :=
    sortD_pairwise tblLe tblLe_total tblLe_trans tbl
  have hsub := emitM_sublist w (sortD tblLe tbl) []
  have hmp := List.pairwise_map.mp (List.Pairwise.sublist hsub hsorted)
  refine hmp.imp_of_mem ?_
  intro a b ha hb hab
  have hfa := (emitM_facts w _ _ a ha).2.2.1
  have hfb := (emitM_facts w _ _ b hb).2.2.1
  simp only [tblLe, decide_eq_true_eq] at hab
  simp only [mLe, decide_eq_true_eq, hfa, hfb]
  omega

/-- Membership transfer: every emitted match carries a (suffix, rule) pair
of the original table. -/
theorem findSuffixMatches_mem_tbl (w : List Char)
    (tbl : List (List Char × SuffixInfo)) (m : SMatch)
    (hm : m ∈ findSuffixMatches w tbl) : (m.suffix, m.info) ∈ tbl := by
  rw [findSuffixMatches_eq] at hm
  have hsub := emitM_sublist w (sortD tblLe tbl) []
  have := hsub.subset (List.mem_map_of_mem _ hm)
  exact (sortD_perm tblLe tbl).mem_iff.mp this

/-- Construction facts for the final match list of `find_suffix_matches`. -/
theorem findSuffixMatches_facts (w : List Char)
    (tbl : List (List Char × SuffixInfo)) (m : SMatch)
    (hm : m ∈ findSuffixMatches w tbl) :
    (m.suffix <:+ w) ∧
    m.base = (if 0 < m.suffix.length then w.take (w.length - m.suffix.length)
      else w) ∧
    m.priority = m.info.priority ∧
    precedeOk m.info.must_precede m.base = true := by
  rw [findSuffixMatches_eq] at hm
  have h := emitM_facts w (sortD tblLe tbl) [] m hm
  exact ⟨h.1, h.2.1, h.2.2.1, h.2.2.2.1⟩

/-- The blocking invariant for the final match list. -/
theorem findSuffixMatches_blocks (w : List Char)
    (tbl : List (List Char × SuffixInfo)) :
    (findSuffixMatches w tbl).Pairwise
      (fun m1 m2 => m2.suffix ∉ m1.info.blocks) := by
  rw [findSuffixMatches_eq]
  exact emitM_blocks w (sortD tblLe tbl) []

/-- The final match list descends in priority. -/
theorem findSuffixMatches_priorities (w : List Char)
    (tbl : List (List Char × SuffixInfo)) :
    (findSuffixMatches w tbl).Pairwise
      (fun m1 m2 => m2.info.priority ≤ m1.info.priority) := by
  rw [findSuffixMatches_eq]
  have hsorted : (sortD tblLe tbl).Pairwise (fun a b => tblLe b a = true) :=
    sortD_pairwise tblLe tblLe_total tblLe_trans tbl
  have hsub := emitM_sublist w (sortD tblLe tbl) []
  have hmp := List.pairwise_map.mp (List.Pairwise.sublist hsub hsorted)
  refine hmp.imp ?_
  intro a b hab
  simp only [tblLe, decide_eq_true_eq] at hab
  omega

/-- Inserting an element strictly below `v` passes over a prefix of
strictly greater elements and over `v` itself. -/
theorem insConf_through (a v : Analysis) (P S : List Analysis)
    (hP : ∀ b ∈ P, confLe b a = false)
    (hv : confLe v a = false) :
    insD confLe a (P ++ v :: S) = P ++ v :: insD confLe a S := by
  induction P with
  | nil => simp [insD, hv]
  | cons b P ih =>
    have hb := hP b (List.mem_cons_self b P)
    simp only [List.cons_append, insD, hb, Bool.false_eq_true, if_false,
      List.append_eq]
    rw [ih (fun x hx => hP x (List.mem_cons_of_mem b hx))]

/-- Splitting a stable confidence sort around a maximal pivot: every element
is ≤ `v`, the sorted list is `Q ++ v :: T` where `Q` consists exactly of the
elements of the prefix `P` whose confidence reaches `v`'s. -/
theorem sortConf_split (v : Analysis) :
    ∀ (P S : List Analysis),
      (∀ x ∈ P ++ S, x.confidence ≤ v.confidence) →
      ∃ Q T, sortD confLe (P ++ v :: S) = Q ++ v :: T ∧
        Q.length = P.countP (fun x => decide (v.confidence ≤ x.confidence)) ∧
        (∀ x ∈ Q, x ∈ P ∧ v.confidence ≤ x.confidence) := by
  intro P
  induction P with
  | nil =>
    intro S hmax
    refine ⟨[], sortD confLe S, ?_, by simp, by simp⟩
    simp only [List.nil_append, sortD]
    apply insD_head
    intro x hx
    have hx2 := mem_sortD.mp hx
    simp only [confLe, decide_eq_true_eq]
    exact hmax x (by simp [hx2])
  | cons a P ih =>
    intro S hmax
    have hmax2 : ∀ x ∈ P ++ S, x.confidence ≤ v.confidence := by
      intro x hx
      exact hmax x (by
        rcases List.mem_append.mp hx with h | h
        · exact List.mem_append_left _ (List.mem_cons_of_mem a h)
        · exact List.mem_append_right _ h)
    rcases ih S hmax2 with ⟨Q, T, hQT, hlen, hmem⟩
    have hperm : List.Perm (Q ++ v :: T) (P ++ v :: S) := by
      rw [← hQT]; exact sortD_perm confLe (P ++ v :: S)
    simp only [List.cons_append, sortD, List.append_eq, hQT]
    by_cases hcge : v.confidence ≤ a.confidence
    · have hhead : insD confLe a (Q ++ v :: T) = a :: (Q ++ v :: T) := by
        apply insD_head
        intro x hx
        simp only [confLe, decide_eq_true_eq]
        rcases List.mem_append.mp hx with h | h
        · have h2 := hmem x h
          have h3 := hmax x (List.mem_append_left _ (List.mem_cons_of_mem a h2.1))
          exact le_trans h3 hcge
        · rcases List.mem_cons.mp h with h | h
          · rw [h]; exact hcge
          · have hxm : x ∈ P ++ v :: S := hperm.mem_iff.mp
              (List.mem_append_right _ (List.mem_cons_of_mem v h))
            rcases List.mem_append.mp hxm with h4 | h4
            · exact le_trans (hmax x (List.mem_append_left _
                (List.mem_cons_of_mem a h4))) hcge
            · rcases List.mem_cons.mp h4 with h5 | h5
              · rw [h5]; exact hcge
              · exact le_trans (hmax x (List.mem_append_right _ h5)) hcge
      rw [hhead]
      refine ⟨a :: Q, T, rfl, ?_, ?_⟩
      · simp only [List.length_cons, List.countP_cons, hlen,
          decide_eq_true_eq, hcge, if_true]
      · intro x hx
        rcases List.mem_cons.mp hx with h | h
        · rw [h]; exact ⟨List.mem_cons_self a P, hcge⟩
        · have h2 := hmem x h
          exact ⟨List.mem_cons_of_mem a h2.1, h2.2⟩
    · have hthrough : insD confLe a (Q ++ v :: T) = Q ++ v :: insD confLe a T := by
        apply insConf_through
        · intro b hb
          have h2 := hmem b hb
          simp only [confLe, decide_eq_false_iff_not]
          intro hba
          exact hcge (le_trans h2.2 hba)
        · simp only [confLe, decide_eq_false_iff_not]
          exact hcge
      rw [hthrough]
      refine ⟨Q, insD confLe a T, rfl, ?_,
        fun x hx => ⟨List.mem_cons_of_mem a (hmem x hx).1, (hmem x hx).2⟩⟩
      simp only [List.countP_cons, hlen, decide_eq_true_eq, hcge, if_false]
      omega

/-- Distinct table keys give pairwise distinct match suffixes. -/
theorem findSuffixMatches_nodup (w : List Char)
    (tbl : List (List Char × SuffixInfo))
    (hnd : (tbl.map Prod.fst).Nodup) :
    ((findSuffixMatches w tbl).map (fun m => m.suffix)).Nodup := by
  rw [findSuffixMatches_eq]
  have hsub := emitM_sublist w (sortD tblLe tbl) []
  have hsub2 := hsub.map Prod.fst
  have hnds : ((sortD tblLe tbl).map Prod.fst).Nodup :=
    (((sortD_perm tblLe tbl).map Prod.fst).nodup_iff).mpr hnd
  have := hnds.sublist hsub2
  simpa [List.map_map, Function.comp] using this

/-- The four noun suffixes whose rule confidence is 0.95; only analyses built
from one of them can be capped at confidence 1. -/
def big4 : List (List Char) :=
  ["hinto", "hiMto", "sunto", "suMto"].map String.toList

theorem nounTbl_conf_bounds :
    ∀ e ∈ nounSuffixes, 0 ≤ e.2.confidence ∧ e.2.confidence ≤ 1 := by decide

theorem verbTbl_conf_bounds :
    ∀ e ∈ verbEndings, 0 ≤ e.2.confidence ∧ e.2.confidence ≤ 1 := by decide

theorem nounTbl_big4_or_small :
    ∀ e ∈ nounSuffixes, e.1 ∈ big4 ∨ e.2.confidence ≤ 0.9 := by decide

theorem big4_length : ∀ s ∈ big4, s.length = 5 := by decide

theorem nounTbl_nodup : (nounSuffixes.map Prod.fst).Nodup := by decide

theorem nounTbl_big4_combos :
    ∀ e ∈ nounSuffixes, e.1 ∈ big4 →
      e.2.genders.length * (e.2.cases.length * e.2.numbers.length) ≤ 6 := by
  decide

/-- Shape of the dict returned by the noun branch of `check_attested_form`. -/
theorem checkAttestedNounForm_eq {db : List (List Char × List (List Char × NounTags))}
    {w : List Char} {a : Analysis} (h : checkAttestedNounForm db w = some a) :
    ∃ hit, findNounHit db w = some hit ∧
      a = { form := w, stem := some hit.1,
            gender := some (hit.2.gender.getD "unknown"),
            kase := some (hit.2.kase.getD "unknown"),
            number := some (hit.2.number.getD "unknown"),
            source := "attested_noun", confidence := 1 } := by
  unfold checkAttestedNounForm at h
  cases hh : findNounHit db w with
  | none => rw [hh] at h; cases h
  | some hit =>
    rw [hh] at h
    exact ⟨hit, rfl, (Option.some.inj h).symm⟩

/-- Decomposition of membership in the per-gender noun guesses. -/
theorem mem_nounGuessesChecked {w : List Char} {m : SMatch} {g : String}
    {stem : List Char} {a : Analysis} (h : a ∈ nounGuessesChecked w m g stem) :
    ¬(stem = [] ∨ stem.length < 2) ∧ isValidPrakritStem stem = true ∧
    ∃ c n, c ∈ m.info.cases ∧ n ∈ m.info.numbers ∧
      a = mkNounGuess w m stem g c n := by
  unfold nounGuessesChecked at h
  by_cases h1 : (stem = [] ∨ stem.length < 2)
  · rw [if_pos h1] at h; exact absurd h (List.not_mem_nil a)
  · rw [if_neg h1] at h
    by_cases h2 : isValidPrakritStem stem = false
    · rw [if_pos h2] at h; exact absurd h (List.not_mem_nil a)
    · rw [if_neg h2] at h
      refine ⟨h1, by simpa using h2, ?_⟩
      rcases List.mem_flatMap.mp h with ⟨c, hc, h3⟩
      rcases List.mem_map.mp h3 with ⟨n, hn, h4⟩
      exact ⟨c, n, hc, hn, h4.symm⟩

/-- Noun-path candidate shape: every analysis produced by `analyze_as_noun`
is either the attested dict (confidence exactly 1, no `suffix`/`ending`/
`type` keys) or an ending-based guess with confidence in [0, 1] and a
phonologically validated stem. -/
theorem mem_analyzeAsNoun {p : ParserState} {w : List Char} {a : Analysis}
    (h : a ∈ analyzeAsNoun p w) :
    (a.source = "attested_noun" ∧ a.typ = none ∧ a.confidence = 1 ∧
      a.suffix = none ∧ a.ending = none) ∨
    (a.source = "ending_based_guess" ∧ a.typ = some "noun" ∧
      0 ≤ a.confidence ∧ a.confidence ≤ 1 ∧ a.root = none ∧
      ∃ s, a.stem = some s ∧ isValidPrakritStem s = true) := by
  unfold analyzeAsNoun at h
  cases hatt : checkAttestedNounForm p.all_noun_forms w with
  | some att =>
    rw [hatt] at h
    have ha : a = att := by simpa using h
    rcases checkAttestedNounForm_eq hatt with ⟨hit, _, hform⟩
    rw [ha, hform]
    exact Or.inl ⟨rfl, rfl, rfl, rfl, rfl⟩
  | none =>
    rw [hatt] at h
    rcases List.mem_flatMap.mp h with ⟨m, hm10, hma⟩
    have hmS : m ∈ findSuffixMatches w nounSuffixes := List.mem_of_mem_take hm10
    have htbl := findSuffixMatches_mem_tbl w nounSuffixes m hmS
    have hcb := nounTbl_conf_bounds _ htbl
    unfold nounAnalysesOfMatch at hma
    rcases List.mem_flatMap.mp hma with ⟨g, hg, hga⟩
    unfold nounAnalysesOfGender at hga
    rcases mem_nounGuessesChecked hga with ⟨hlen, hval, c, n, hc, hn, ha⟩
    rw [ha]
    refine Or.inr ⟨rfl, rfl, ?_, ?_, rfl,
      reconstructNounStem m.base m.suffix g, rfl, hval⟩
    · show 0 ≤ qmin (if endsStemBoost (reconstructNounStem m.base m.suffix g)
        then m.info.confidence + 0.05 else m.info.confidence) 1
      rw [qmin_eq_min]
      refine le_min ?_ (by norm_num)
      split
      · linarith [hcb.1]
      · exact hcb.1
    · show qmin (if endsStemBoost (reconstructNounStem m.base m.suffix g)
        then m.info.confidence + 0.05 else m.info.confidence) 1 ≤ 1
      rw [qmin_eq_min]
      exact min_le_right _ _

/-- Every direct-strategy root candidate of `analyze_as_verb` carries boost
0.15 and no sandhi note. -/
theorem mem_directRoots {roots : List (List Char)} {base : List Char}
    {c : RootCand} (h : c ∈ directRoots roots base) :
    c.method = RMethod.direct ∧ c.note = none ∧ c.boost = 0.15 := by
  unfold directRoots at h
  rcases List.mem_filterMap.mp h with ⟨i, _, hi⟩
  by_cases hmem : base.take i ∈ roots
  · rw [if_pos hmem] at hi
    rw [← Option.some.inj hi]
    exact ⟨rfl, rfl, rfl⟩
  · rw [if_neg hmem] at hi; cases hi

/-- Every sandhi-strategy root candidate of `analyze_as_verb` carries a
sandhi note and boost 0.20 (full) or 0.12 (partial). -/
theorem mem_sandhiRoots {roots : List (List Char)} {base : List Char}
    {c : RootCand} (h : c ∈ sandhiRoots roots base) :
    (∃ rule, c.note = some rule) ∧ (c.boost = 0.20 ∨ c.boost = 0.12) := by
  unfold sandhiRoots at h
  rcases List.mem_flatMap.mp h with ⟨cr, _, h2⟩
  rcases List.mem_append.mp h2 with h3 | h3
  · by_cases hm : cr.1 ∈ roots
    · rw [if_pos hm] at h3
      rw [List.mem_singleton.mp h3]
      exact ⟨⟨cr.2, rfl⟩, Or.inl rfl⟩
    · rw [if_neg hm] at h3; cases h3
  · rcases List.mem_filterMap.mp h3 with ⟨i, _, hi⟩
    by_cases hm : cr.1.take i ∈ roots
    · rw [if_pos hm] at hi
      rw [← Option.some.inj hi]
      exact ⟨⟨cr.2, rfl⟩, Or.inr rfl⟩
    · rw [if_neg hm] at hi; cases hi

/-- Every root candidate of `analyze_as_verb`: guesses and direct matches
carry no sandhi note (boost 0.15 or −0.1), sandhi candidates carry one
(boost 0.20 or 0.12). -/
theorem mem_verbCands {roots : List (List Char)} {base : List Char}
    {c : RootCand} (h : c ∈ verbCands roots base) :
    (c.note = none ∧ (c.boost = 0.15 ∨ c.boost = -0.1)) ∨
    ((∃ rule, c.note = some rule) ∧ (c.boost = 0.20 ∨ c.boost = 0.12)) := by
  unfold verbCands at h
  by_cases he : directRoots roots base ++ sandhiRoots roots base = []
  · rw [if_pos he] at h
    rw [List.mem_singleton.mp h]
    exact Or.inl ⟨rfl, Or.inr rfl⟩
  · rw [if_neg he] at h
    rcases List.mem_append.mp h with h2 | h2
    · rcases mem_directRoots h2 with ⟨_, hn, hb⟩
      exact Or.inl ⟨hn, Or.inl hb⟩
    · exact Or.inr (mem_sandhiRoots h2)

/-- Field-level shape of one verb analysis dict, including the source/notes
selection driven by the sandhi note. -/
theorem verbAnalysisOfCand_shape (w : List Char) (m : SMatch) (c : RootCand) :
    (verbAnalysisOfCand w m c).typ = some "verb" ∧
    (verbAnalysisOfCand w m c).stem = none ∧
    (verbAnalysisOfCand w m c).root = some c.root ∧
    (verbAnalysisOfCand w m c).ending = some m.suffix ∧
    (verbAnalysisOfCand w m c).suffix = none ∧
    (verbAnalysisOfCand w m c).confidence =
      qmin (qmax (m.info.confidence + c.boost) 0.1) 1 ∧
    ((c.note = none ∧
        (verbAnalysisOfCand w m c).source = "ending_based_guess") ∨
     (∃ rule, c.note = some rule ∧
        (verbAnalysisOfCand w m c).source = "sandhi_analysis" ∧
        (verbAnalysisOfCand w m c).notes = [Note.verbSandhi c.root rule])) := by
  unfold verbAnalysisOfCand
  cases hn : c.note with
  | none =>
    cases hm : c.method <;>
      exact ⟨rfl, rfl, rfl, rfl, rfl, rfl, Or.inl ⟨rfl, rfl⟩⟩
  | some rule =>
    exact ⟨rfl, rfl, rfl, rfl, rfl, rfl, Or.inr ⟨rule, rfl, rfl, rfl⟩⟩

/-- Verb-path candidate shape: every analysis produced by `analyze_as_verb`
is either the attested dict (confidence exactly 1) or an ending-based /
sandhi analysis with confidence in [0, 1] and a phonologically validated
root. -/
theorem mem_analyzeAsVerb {p : ParserState} {w : List Char} {a : Analysis}
    (h : a ∈ analyzeAsVerb p w) :
    a.typ = some "verb" ∧ a.stem = none ∧ a.suffix = none ∧
    0 ≤ a.confidence ∧ a.confidence ≤ 1 ∧
    ((a.source = "attested_verb" ∧ a.confidence = 1 ∧ a.ending = none) ∨
     ((a.source = "ending_based_guess" ∨ a.source = "sandhi_analysis") ∧
      ∃ r, a.root = some r ∧ isValidPrakritStem r = true)) := by
  unfold analyzeAsVerb at h
  cases hatt : findVerbRoot p.all_verb_forms w with
  | some root =>
    rw [hatt] at h
    rw [List.mem_singleton.mp h]
    exact ⟨rfl, rfl, rfl, (by norm_num : (0 : ℚ) ≤ 1),
      (by norm_num : (1 : ℚ) ≤ 1), Or.inl ⟨rfl, rfl, rfl⟩⟩
  | none =>
    rw [hatt] at h
    rcases List.mem_flatMap.mp h with ⟨m, hm10, hma⟩
    unfold verbAnalysesOfMatch at hma
    rcases List.mem_filterMap.mp hma with ⟨c, hcm, hci⟩
    by_cases hval : isValidPrakritStem c.root = true
    · rw [if_pos hval] at hci
      rw [← Option.some.inj hci]
      rcases verbAnalysisOfCand_shape w m c with
        ⟨ht, hs, hr, he, hsf, hcf, hsrc⟩
      have hc0 : 0 ≤ (verbAnalysisOfCand w m c).confidence := by
        rw [hcf, qmin_eq_min, qmax_eq_max]
        refine le_min ?_ (by norm_num)
        calc (0 : ℚ) ≤ 0.1 := by norm_num
        _ ≤ max (m.info.confidence + c.boost) 0.1 := le_max_right _ _
      have hc1 : (verbAnalysisOfCand w m c).confidence ≤ 1 := by
        rw [hcf, qmin_eq_min]
        exact min_le_right _ _
      refine ⟨ht, hs, hsf, hc0, hc1, Or.inr ⟨?_, c.root, hr, hval⟩⟩
      rcases hsrc with ⟨_, hsrc⟩ | ⟨rule, _, hsrc, _⟩
      · exact Or.inl hsrc
      · exact Or.inr hsrc
    · rw [if_neg hval] at hci; cases hci

theorem adjustWithStat_fields (st : SuffStat) (a : Analysis) :
    (adjustWithStat st a).typ = a.typ ∧
    (adjustWithStat st a).source = a.source ∧
    (adjustWithStat st a).stem = a.stem ∧
    (adjustWithStat st a).root = a.root ∧
    (adjustWithStat st a).suffix = a.suffix ∧
    (adjustWithStat st a).ending = a.ending := by
  unfold adjustWithStat
  by_cases h1 : 0 < st.correct + st.incorrect
  · rw [if_pos h1]
    by_cases h2 : 0.8 < accuracyOf st ∧ 3 ≤ st.correct
    · rw [if_pos h2]; exact ⟨rfl, rfl, rfl, rfl, rfl, rfl⟩
    · rw [if_neg h2]
      by_cases h3 : accuracyOf st < 0.3 ∧ 3 ≤ st.correct + st.incorrect
      · rw [if_pos h3]; exact ⟨rfl, rfl, rfl, rfl, rfl, rfl⟩
      · rw [if_neg h3]; exact ⟨rfl, rfl, rfl, rfl, rfl, rfl⟩
  · rw [if_neg h1]; exact ⟨rfl, rfl, rfl, rfl, rfl, rfl⟩

/-- The feedback pass never touches any key other than `confidence` and
`notes`. -/
theorem adjustOne_fields (fb : FeedbackData) (a : Analysis) :
    (adjustOne fb a).typ = a.typ ∧ (adjustOne fb a).source = a.source ∧
    (adjustOne fb a).stem = a.stem ∧ (adjustOne fb a).root = a.root ∧
    (adjustOne fb a).suffix = a.suffix ∧ (adjustOne fb a).ending = a.ending := by
  cases hso : pyOr a.suffix a.ending with
  | none =>
    have he : adjustOne fb a = a := by unfold adjustOne; rw [hso]
    rw [he]
    exact ⟨rfl, rfl, rfl, rfl, rfl, rfl⟩
  | some sfx =>
    have he : adjustOne fb a = adjustWithSuffix fb sfx a := by
      unfold adjustOne; rw [hso]
    rw [he]
    cases hst : assocGet sfx fb.suffix_accuracy with
    | none =>
      have he2 : adjustWithSuffix fb sfx a = a := by
        unfold adjustWithSuffix; rw [hst]
      rw [he2]
      exact ⟨rfl, rfl, rfl, rfl, rfl, rfl⟩
    | some st =>
      have he2 : adjustWithSuffix fb sfx a = adjustWithStat st a := by
        unfold adjustWithSuffix; rw [hst]
      rw [he2]
      exact adjustWithStat_fields st a

theorem adjustWithStat_conf (st : SuffStat) (a : Analysis)
    (h0 : 0 ≤ a.confidence) (h1 : a.confidence ≤ 1) :
    0 ≤ (adjustWithStat st a).confidence ∧
    (adjustWithStat st a).confidence ≤ 1 ∧
    a.confidence - 0.15 ≤ (adjustWithStat st a).confidence ∧
    (adjustWithStat st a).confidence ≤ a.confidence + 0.10 := by
  unfold adjustWithStat
  by_cases hc1 : 0 < st.correct + st.incorrect
  · rw [if_pos hc1]
    by_cases hc2 : 0.8 < accuracyOf st ∧ 3 ≤ st.correct
    · rw [if_pos hc2]
      show 0 ≤ qmin 1 (a.confidence + 0.10) ∧ _
      rw [qmin_eq_min]
      rcases le_total (1 : ℚ) (a.confidence + 0.10) with h | h
      · rw [min_eq_left h]
        exact ⟨by norm_num, le_refl 1, by linarith, h⟩
      · rw [min_eq_right h]
        exact ⟨by linarith, by linarith, by linarith, le_refl _⟩
    · rw [if_neg hc2]
      by_cases hc3 : accuracyOf st < 0.3 ∧ 3 ≤ st.correct + st.incorrect
      · rw [if_pos hc3]
        show 0 ≤ qmax 0.1 (a.confidence - 0.15) ∧ _
        rw [qmax_eq_max]
        rcases le_total ((0.1 : ℚ)) (a.confidence - 0.15) with h | h
        · rw [max_eq_right h]
          exact ⟨by linarith, by linarith, le_refl _, by linarith⟩
        · rw [max_eq_left h]
          exact ⟨by norm_num, by norm_num, by linarith, by linarith⟩
      · rw [if_neg hc3]
        exact ⟨h0, h1, by linarith, by linarith⟩
  · rw [if_neg hc1]
    exact ⟨h0, h1, by linarith, by linarith⟩

/-- Confidence bounds of the feedback pass: the result stays in [0, 1] and
moves by at most 0.15 downward / 0.10 upward. -/
theorem adjustOne_conf (fb : FeedbackData) (a : Analysis)
    (h0 : 0 ≤ a.confidence) (h1 : a.confidence ≤ 1) :
    0 ≤ (adjustOne fb a).confidence ∧ (adjustOne fb a).confidence ≤ 1 ∧
    a.confidence - 0.15 ≤ (adjustOne fb a).confidence ∧
    (adjustOne fb a).confidence ≤ a.confidence + 0.10 := by
  cases hso : pyOr a.suffix a.ending with
  | none =>
    have he : adjustOne fb a = a := by unfold adjustOne; rw [hso]
    rw [he]
    exact ⟨h0, h1, by linarith, by linarith⟩
  | some sfx =>
    have he : adjustOne fb a = adjustWithSuffix fb sfx a := by
      unfold adjustOne; rw [hso]
    rw [he]
    cases hst : assocGet sfx fb.suffix_accuracy with
    | none =>
      have he2 : adjustWithSuffix fb sfx a = a := by
        unfold adjustWithSuffix; rw [hst]
      rw [he2]
      exact ⟨h0, h1, by linarith, by linarith⟩
    | some st =>
      have he2 : adjustWithSuffix fb sfx a = adjustWithStat st a := by
        unfold adjustWithSuffix; rw [hst]
      rw [he2]
      exact adjustWithStat_conf st a h0 h1

/-- An analysis carrying neither a `suffix` nor an `ending` key (in
particular every attested candidate) passes through the feedback pass
unchanged. -/
theorem adjustOne_of_none (fb : FeedbackData) (a : Analysis)
    (h1 : a.suffix = none) (h2 : a.ending = none) : adjustOne fb a = a := by
  unfold adjustOne
  rw [h1, h2]
  rfl

theorem adjustWithStat_changed (st : SuffStat) (a : Analysis)
    (h : (adjustWithStat st a).confidence ≠ a.confidence) :
    3 ≤ st.correct + st.incorrect ∧
    ((0.8 < accuracyOf st ∧ 3 ≤ st.correct ∧
        (adjustWithStat st a).confidence = qmin 1 (a.confidence + 0.10)) ∨
     (accuracyOf st < 0.3 ∧
        (adjustWithStat st a).confidence = qmax 0.1 (a.confidence - 0.15))) := by
  unfold adjustWithStat at h ⊢
  by_cases hc1 : 0 < st.correct + st.incorrect
  · rw [if_pos hc1] at h ⊢
    by_cases hc2 : 0.8 < accuracyOf st ∧ 3 ≤ st.correct
    · rw [if_pos hc2] at h ⊢
      exact ⟨by omega, Or.inl ⟨hc2.1, hc2.2, rfl⟩⟩
    · rw [if_neg hc2] at h ⊢
      by_cases hc3 : accuracyOf st < 0.3 ∧ 3 ≤ st.correct + st.incorrect
      · rw [if_pos hc3] at h ⊢
        exact ⟨hc3.2, Or.inr ⟨hc3.1, rfl⟩⟩
      · rw [if_neg hc3] at h
        exact absurd rfl h
  · rw [if_neg hc1] at h
    exact absurd rfl h

/-- If the feedback pass changed a confidence, feedback statistics with at
least 3 observations exist for the suffix/ending, and the new confidence is
one of the two fixed steps of the source. -/
theorem adjustOne_changed (fb : FeedbackData) (a : Analysis)
    (h : (adjustOne fb a).confidence ≠ a.confidence) :
    ∃ sfx st, pyOr a.suffix a.ending = some sfx ∧
      assocGet sfx fb.suffix_accuracy = some st ∧
      3 ≤ st.correct + st.incorrect ∧
      ((0.8 < accuracyOf st ∧ 3 ≤ st.correct ∧
          (adjustOne fb a).confidence = qmin 1 (a.confidence + 0.10)) ∨
       (accuracyOf st < 0.3 ∧
          (adjustOne fb a).confidence = qmax 0.1 (a.confidence - 0.15))) := by
  cases hso : pyOr a.suffix a.ending with
  | none =>
    have he : adjustOne fb a = a := by unfold adjustOne; rw [hso]
    rw [he] at h
    exact absurd rfl h
  | some sfx =>
    have he : adjustOne fb a = adjustWithSuffix fb sfx a := by
      unfold adjustOne; rw [hso]
    rw [he] at h ⊢
    cases hst : assocGet sfx fb.suffix_accuracy with
    | none =>
      have he2 : adjustWithSuffix fb sfx a = a := by
        unfold adjustWithSuffix; rw [hst]
      rw [he2] at h
      exact absurd rfl h
    | some st =>
      have he2 : adjustWithSuffix fb sfx a = adjustWithStat st a := by
        unfold adjustWithSuffix; rw [hst]
      rw [he2] at h ⊢
      rcases adjustWithStat_changed st a h with ⟨ht, hd⟩
      exact ⟨sfx, st, rfl, hst, ht, hd⟩

/-- On a successful validation, `parse` returns the truncated pipeline. -/
theorem parse_success_eq (p : ParserState) (t : List Char)
    (hval : firstForbidden (transHk p t) = none) :
    (parse p t).success = true ∧
    (parse p t).analyses = (parsePipeline p (wordHk p t)).take 15 := by
  unfold parse
  rw [hval]
  exact ⟨rfl, rfl⟩

/-- On a failed validation, `parse` returns no analyses. -/
theorem parse_fail_analyses (p : ParserState) (t : List Char)
    (pr : List Char × String)
    (hval : firstForbidden (transHk p t) = some pr) :
    (parse p t).analyses = [] ∧ (parse p t).success = false := by
  unfold parse
  rw [hval]
  exact ⟨rfl, rfl⟩

/-- Every pipeline element is the feedback adjustment of a noun-path or
verb-path candidate. -/
theorem mem_parsePipeline {p : ParserState} {w : List Char} {a : Analysis}
    (h : a ∈ parsePipeline p w) :
    ∃ b, (b ∈ analyzeAsNoun p w ∨ b ∈ analyzeAsVerb p w) ∧
      a = adjustOne p.feedback b := by
  unfold parsePipeline applyLearned at h
  have h2 := mem_sortD.mp h
  rcases List.mem_map.mp h2 with ⟨c, hc, hca⟩
  have h3 := mem_sortD.mp hc
  rcases List.mem_append.mp h3 with h4 | h4
  · exact ⟨c, Or.inl h4, hca.symm⟩
  · exact ⟨c, Or.inr h4, hca.symm⟩

/-- Every returned analysis is the feedback adjustment of a noun-path or
verb-path candidate on the normalized word. -/
theorem mem_parse_analyses {p : ParserState} {t : List Char} {a : Analysis}
    (h : a ∈ (parse p t).analyses) :
    ∃ b, (b ∈ analyzeAsNoun p (wordHk p t) ∨
          b ∈ analyzeAsVerb p (wordHk p t)) ∧
      a = adjustOne p.feedback b := by
  cases hval : firstForbidden (transHk p t) with
  | some pr =>
    rw [(parse_fail_analyses p t pr hval).1] at h
    exact absurd h (List.not_mem_nil a)
  | none =>
    rw [(parse_success_eq p t hval).2] at h
    exact mem_parsePipeline (List.mem_of_mem_take h)

/-- In a list that is pairwise `R` in order and pairwise descending on a
natural key, `R a b` holds whenever the key of `b` is strictly below the key
of `a`. -/
theorem pairwise_of_lt {α : Type} (keyf : α → ℕ) (R : α → α → Prop) :
    ∀ (l : List α), l.Pairwise R →
      l.Pairwise (fun x y => keyf y ≤ keyf x) →
      ∀ a ∈ l, ∀ b ∈ l, keyf b < keyf a → R a b := by
  intro l
  induction l with
  | nil => intro _ _ a ha; cases ha
  | cons x l ih =>
    intro hR hS a ha b hb hlt
    rcases List.pairwise_cons.mp hR with ⟨hRx, hRl⟩
    rcases List.pairwise_cons.mp hS with ⟨hSx, hSl⟩
    rcases List.mem_cons.mp ha with ha1 | ha1
    · rcases List.mem_cons.mp hb with hb1 | hb1
      · exfalso
        have h2 := hlt
        rw [ha1, hb1] at h2
        omega
      · rw [ha1]
        exact hRx b hb1
    · rcases List.mem_cons.mp hb with hb1 | hb1
      · exfalso
        have h2 := hSx a ha1
        rw [hb1] at hlt
        omega
      · exact ih hRl hSl a ha1 b hb1 hlt

/-- Default match record, used only to spell out concrete witnesses. -/
def dSM : SMatch :=
  { suffix := [], base := [],
    info := { cases := [], numbers := [], genders := [], must_precede := [],
              blocks := [], priority := 0, confidence := 0, person := none,
              number := none, tense := none },
    priority := 0 }

/-- C4: suffix matching emits a rule only when its suffix literally ends the
word and its non-empty `must_precede` set contains the character before the
suffix boundary; the result list descends in priority, and no match uses a
suffix contained in the `blocks` set of any earlier (in particular any
higher-priority) match on the same word. -/
theorem suffix_blocking_invariant (w : List Char)
    (tbl : List (List Char × SuffixInfo)) :
    (∀ m ∈ findSuffixMatches w tbl,
      (m.suffix <:+ w) ∧
      (m.info.must_precede ≠ [] →
        ∃ c, m.base.getLast? = some c ∧ c ∈ m.info.must_precede)) ∧
    List.Pairwise (fun m1 m2 => m2.suffix ∉ m1.info.blocks)
      (findSuffixMatches w tbl) ∧
    List.Pairwise (fun m1 m2 => m2.info.priority ≤ m1.info.priority)
      (findSuffixMatches w tbl) ∧
    (∀ m1 ∈ findSuffixMatches w tbl, ∀ m2 ∈ findSuffixMatches w tbl,
      m2.info.priority < m1.info.priority → m2.suffix ∉ m1.info.blocks) := by
  refine ⟨?_, findSuffixMatches_blocks w tbl,
    findSuffixMatches_priorities w tbl, ?_⟩
  · intro m hm
    have hf := findSuffixMatches_facts w tbl m hm
    exact ⟨hf.1, fun hne => precedeOk_spec hf.2.2.2 hne⟩
  · exact pairwise_of_lt (fun m => m.info.priority) _ _
      (findSuffixMatches_blocks w tbl) (findSuffixMatches_priorities w tbl)

/-- The first match of `find_suffix_matches("devehinto", noun_suffixes)`,
used as the concrete instance for the C4 witness. -/
def mC4 : SMatch :=
  (findSuffixMatches "devehinto".toList nounSuffixes).getD 0 dSM

/-- Witness for C4 at the concrete word "devehinto": its top match has a
literal suffix of the word and satisfies its `must_precede` gate. -/
theorem suffix_blocking_invariant_witness :
    (mC4.suffix <:+ "devehinto".toList) ∧
    (∃ c, mC4.base.getLast? = some c ∧ c ∈ mC4.info.must_precede) := by
  have h := suffix_blocking_invariant "devehinto".toList nounSuffixes
  have h2 := h.1 mC4 (by decide)
  exact ⟨h2.1, h2.2 (by decide)⟩

/-- C3: every candidate in the analyses list returned by `parse` carries a
confidence in the closed interval [0, 1]; this covers the attested, noun
and verb base-score constructions and survives the feedback adjustment
pass. -/
theorem parse_confidence_in_unit_range (p : ParserState) (t : List Char)
    (a : Analysis) (h : a ∈ (parse p t).analyses) :
    0 ≤ a.confidence ∧ a.confidence ≤ 1 := by
  rcases mem_parse_analyses h with ⟨b, hb, ha⟩
  have hbb : 0 ≤ b.confidence ∧ b.confidence ≤ 1 := by
    rcases hb with hb | hb
    · rcases mem_analyzeAsNoun hb with ⟨_, _, hc, _, _⟩ | ⟨_, _, hc0, hc1, _⟩
      · rw [hc]
        exact ⟨by norm_num, le_refl 1⟩
      · exact ⟨hc0, hc1⟩
    · rcases mem_analyzeAsVerb hb with ⟨_, _, _, hc0, hc1, _⟩
      exact ⟨hc0, hc1⟩
  rw [ha]
  have h2 := adjustOne_conf p.feedback b hbb.1 hbb.2
  exact ⟨h2.1, h2.2.1⟩

/-- The parser state used by several concrete witnesses: a single attested
noun form dhammo → stem dhamma. -/
def pW1 : ParserState :=
  { all_noun_forms := [("dhamma".toList,
      [("dhammo".toList,
        { gender := some "masculine", kase := some "nominative",
          number := some "singular" })])] }

/-- Witness for C3 at the concrete input "dhammo": the first returned
analysis has confidence within [0, 1]. -/
theorem parse_confidence_in_unit_range_witness :
    0 ≤ ((parse pW1 "dhammo".toList).analyses.getD 0 {}).confidence ∧
    ((parse pW1 "dhammo".toList).analyses.getD 0 {}).confidence ≤ 1 :=
  parse_confidence_in_unit_range pW1 "dhammo".toList _ (by decide)

/-- The parser state of the C2 counterexample: the attested index maps the
consonant-final stem "putt" to the surface form "puttaM". -/
def pC2 : ParserState :=
  { all_noun_forms := [("putt".toList, [("puttaM".toList, {})])] }

/-- C2 counterexample: on input "puttaM" with the attested entry
stem "putt" (which ends in a consonant and fails the phonology validator),
`parse` succeeds and returns exactly that stem — attested candidates bypass
`is_valid_prakrit_stem`, so not every returned stem passes the validator. -/
theorem attested_stem_bypasses_validator :
    (parse pC2 "puttaM".toList).success = true ∧
    ((parse pC2 "puttaM".toList).analyses.map (fun a => a.stem)) =
      [some "putt".toList] ∧
    ((parse pC2 "puttaM".toList).analyses.map (fun a => a.source)) =
      ["attested_noun"] ∧
    isValidPrakritStem "putt".toList = false := by decide

/-- C2 amended: every candidate returned by `parse` whose source is
`ending_based_guess` or `sandhi_analysis` (i.e. every non-attested
candidate) has its stem (noun path) or root (verb path) accepted by the
phonology validator; attested candidates carry the database stem or root
without validation. -/
theorem nonattested_stem_or_root_validated (p : ParserState) (t : List Char)
    (a : Analysis) (h : a ∈ (parse p t).analyses)
    (hsrc : a.source = "ending_based_guess" ∨ a.source = "sandhi_analysis") :
    (∀ s, a.stem = some s → isValidPrakritStem s = true) ∧
    (∀ r, a.root = some r → isValidPrakritStem r = true) := by
  rcases mem_parse_analyses h with ⟨b, hb, ha⟩
  have hf := adjustOne_fields p.feedback b
  have hstem : a.stem = b.stem := by rw [ha]; exact hf.2.2.1
  have hroot : a.root = b.root := by rw [ha]; exact hf.2.2.2.1
  have hsrc2 : a.source = b.source := by rw [ha]; exact hf.2.1
  rw [hsrc2] at hsrc
  rcases hb with hb | hb
  · rcases mem_analyzeAsNoun hb with ⟨hat, _⟩ | ⟨_, _, _, _, hbroot, s, hbstem, hval⟩
    · exfalso
      rw [hat] at hsrc
      rcases hsrc with h2 | h2 <;> exact absurd h2 (by decide)
    · constructor
      · intro s2 hs2
        rw [hstem, hbstem] at hs2
        rw [← Option.some.inj hs2]
        exact hval
      · intro r hr
        rw [hroot, hbroot] at hr
        cases hr
  · rcases mem_analyzeAsVerb hb with ⟨_, hbstem, _, _, _, hbs⟩
    rcases hbs with ⟨hat, _, _⟩ | ⟨_, r, hbroot, hval⟩
    · exfalso
      rw [hat] at hsrc
      rcases hsrc with h2 | h2 <;> exact absurd h2 (by decide)
    · constructor
      · intro s2 hs2
        rw [hstem, hbstem] at hs2
        cases hs2
      · intro r2 hr2
        rw [hroot, hbroot] at hr2
        rw [← Option.some.inj hr2]
        exact hval

/-- The parser state of the C9 counterexample and several witnesses: the
verb-root list contains only NI. -/
def pV1 : ParserState := { verb_roots := ["NI".toList] }

/-- Witness for the amended C2 at the concrete input "Nei" (sandhi-derived
verb candidate with root NI): its stem and root fields pass validation. -/
theorem nonattested_stem_or_root_validated_witness :
    (∀ s, ((parse pV1 "Nei".toList).analyses.getD 0 {}).stem = some s →
      isValidPrakritStem s = true) ∧
    (∀ r, ((parse pV1 "Nei".toList).analyses.getD 0 {}).root = some r →
      isValidPrakritStem r = true) :=
  nonattested_stem_or_root_validated pV1 "Nei".toList _ (by decide)
    (by decide)

/-- C5 counterexample: the input "xyz" passes character validation, matches
no attested form and no suffix/ending in either word-class, and `parse`
returns success with an EMPTY analyses list — `parse` has no low-confidence
heuristic fallback. -/
theorem parse_returns_empty_analyses :
    (parse {} "xyz".toList).success = true ∧
    (parse {} "xyz".toList).analyses = [] ∧
    (parse {} "xyz".toList).total_found = 0 := by decide

theorem naWithFallback_ne_nil
    (db : List (List Char × List (List Char × NounTags))) (hk : List Char) :
    naWithFallback db hk ≠ [] := by
  unfold naWithFallback
  by_cases he : naCandidates db hk = []
  · rw [if_pos he]; simp
  · rw [if_neg he]; exact he

/-- C5 amended: the never-empty guarantee holds for
`analyze_noun_form` of noun_analyzer.py, which falls back to a single
confidence-0.2 heuristic candidate when nothing matches; the unified
`parse` can return success with an empty analyses list. -/
theorem analyzeNounForm_never_empty
    (db : List (List Char × List (List Char × NounTags)))
    (f : List Char → List Char) (word : List Char) :
    analyzeNounForm db f word ≠ [] := by
  unfold analyzeNounForm
  intro hemp
  have hperm := sortD_perm confLe (naWithFallback db (naHkOf f word))
  rw [hemp] at hperm
  have hlen := hperm.length_eq
  exact naWithFallback_ne_nil db (naHkOf f word)
    (List.length_eq_zero.mp hlen.symm)

/-- Feedback store and analysis used by the C6 counterexample. -/
def aC6 : Analysis := { suffix := some "o".toList, confidence := 0.65 }

/-- C6 counterexample: when saving fails, `record_feedback` does return
`success: false`, but the in-memory counters HAVE already been applied:
`total_feedback` is incremented, a correction entry is appended and the
suffix counter is created/incremented — the counters are not left as they
were before the call. -/
theorem record_feedback_mutates_on_save_failure :
    ((recordFeedback {} "dhammo".toList aC6 [] 0 false).2.success = false) ∧
    ((recordFeedback {} "dhammo".toList aC6 [] 0 false).1.total_feedback = 1) ∧
    (({} : FeedbackData).total_feedback = 0) ∧
    ((recordFeedback {} "dhammo".toList aC6 [] 0 false).1.suffix_accuracy =
      [("o".toList, { correct := 1, incorrect := 0 })]) ∧
    (({} : FeedbackData).suffix_accuracy = []) := by decide

/-- C6 amended: on a persistence failure `record_feedback` returns
`success: false`, but the in-memory feedback store is updated exactly as on
a successful save — the whole mutation (correction entry, suffix counters,
total) is applied first and never rolled back or partially applied; only
the returned status depends on the save outcome. -/
theorem record_feedback_state_independent_of_save (fb : FeedbackData)
    (word : List Char) (correct : Analysis) (allA : List Analysis) (ts : ℕ) :
    (recordFeedback fb word correct allA ts false).2.success = false ∧
    (recordFeedback fb word correct allA ts false).1 =
      (recordFeedback fb word correct allA ts true).1 := by
  exact ⟨rfl, rfl⟩

/-- Lookup after an upsert finds the updated value. -/
theorem assocGet_assocUpsert {β : Type} (k : List Char) (f : β → β) (d : β)
    (l : List (List Char × β)) :
    assocGet k (assocUpsert k f d l) = some (f ((assocGet k l).getD d)) := by
  induction l with
  | nil => simp [assocGet, assocUpsert]
  | cons e l ih =>
    obtain ⟨k1, v⟩ := e
    by_cases hk : k = k1
    · subst hk
      simp [assocGet, assocUpsert]
    · simp only [assocUpsert, if_neg hk, assocGet, ih]

/-- C10: recording feedback for a correct analysis that carries neither a
`suffix` nor an `ending` key (with a successful save) returns success,
increments `total_feedback` by exactly 1, appends one correction entry for
the word, and leaves the whole `suffix_accuracy` table untouched — in
particular no `incorrect` counter of any other candidate in the batch is
incremented. -/
theorem record_feedback_no_suffix_frame (fb : FeedbackData) (word : List Char)
    (correct : Analysis) (allA : List Analysis) (ts : ℕ)
    (h1 : correct.suffix = none) (h2 : correct.ending = none) :
    (recordFeedback fb word correct allA ts true).2.success = true ∧
    (recordFeedback fb word correct allA ts true).2.total_feedback =
      some (fb.total_feedback + 1) ∧
    (recordFeedback fb word correct allA ts true).1.total_feedback =
      fb.total_feedback + 1 ∧
    (recordFeedback fb word correct allA ts true).1.suffix_accuracy =
      fb.suffix_accuracy ∧
    assocGet word (recordFeedback fb word correct allA ts true).1.form_corrections
      = some ((assocGet word fb.form_corrections).getD [] ++
          [{ correct_analysis := correct, timestamp := ts }]) := by
  unfold recordFeedback
  rw [h1, h2]
  refine ⟨rfl, rfl, rfl, rfl, ?_⟩
  exact assocGet_assocUpsert word _ [] fb.form_corrections

/-- Witness for C10 at concrete inputs: empty store, the word "xyz", a
correct analysis without suffix/ending keys, an empty batch. -/
theorem record_feedback_no_suffix_frame_witness :
    (recordFeedback {} "xyz".toList {} [] 0 true).2.success = true ∧
    (recordFeedback {} "xyz".toList {} [] 0 true).2.total_feedback =
      some (({} : FeedbackData).total_feedback + 1) ∧
    (recordFeedback {} "xyz".toList {} [] 0 true).1.total_feedback =
      ({} : FeedbackData).total_feedback + 1 ∧
    (recordFeedback {} "xyz".toList {} [] 0 true).1.suffix_accuracy =
      ({} : FeedbackData).suffix_accuracy ∧
    assocGet "xyz".toList
        (recordFeedback {} "xyz".toList {} [] 0 true).1.form_corrections
      = some ((assocGet "xyz".toList
          ({} : FeedbackData).form_corrections).getD [] ++
          [{ correct_analysis := {}, timestamp := 0 }]) :=
  record_feedback_no_suffix_frame {} "xyz".toList {} [] 0 rfl rfl

/-- Analysis and feedback stores of the C7 counterexample. -/
def aC7 : Analysis := { suffix := some "o".toList, confidence := 0.5 }

/-- Feedback store with 4 correct / 0 incorrect for suffix o
(accuracy 1.0). -/
def fbA : FeedbackData :=
  { suffix_accuracy := [("o".toList, { correct := 4, incorrect := 0 })] }

/-- Feedback store with 4 correct / 1 incorrect for suffix o
(accuracy 0.8). -/
def fbB : FeedbackData :=
  { suffix_accuracy := [("o".toList, { correct := 4, incorrect := 1 })] }

/-- C7 counterexample: the confidence shift applied by the feedback pass is
NOT proportional to (accuracy − 0.5). With accuracy 1.0 the shift on a
0.5-confidence candidate is +0.10, with accuracy 0.8 it is 0; a
proportional shift k·(accuracy − 0.5) would satisfy
0.10 · (0.8 − 0.5) = 0 · (1.0 − 0.5), which fails. -/
theorem feedback_shift_not_proportional :
    (adjustOne fbA aC7).confidence - aC7.confidence = 0.10 ∧
    (adjustOne fbB aC7).confidence - aC7.confidence = 0 ∧
    accuracyOf { correct := 4, incorrect := 0 } - 0.5 = 0.5 ∧
    accuracyOf { correct := 4, incorrect := 1 } - 0.5 = 0.3 ∧
    ¬ ((0.10 : ℚ) * 0.3 = 0 * 0.5) := by decide

/-- C7 amended: the feedback pass changes a confidence only when statistics
with ≥ 3 observations exist for the candidate's suffix/ending (a boost
additionally needs ≥ 3 correct), and the change is one of two fixed clamped
steps — +0.10 capped at 1.0 when the accuracy exceeds 0.8, −0.15 floored at
0.1 when it is below 0.3 — so no single feedback signal moves a confidence
by more than 0.15 in absolute value; the step is not proportional to
(accuracy − 0.5). -/
theorem feedback_adjustment_fixed_steps (fb : FeedbackData) (a : Analysis)
    (h0 : 0 ≤ a.confidence) (h1 : a.confidence ≤ 1) :
    (a.confidence - 0.15 ≤ (adjustOne fb a).confidence ∧
     (adjustOne fb a).confidence ≤ a.confidence + 0.10) ∧
    ((adjustOne fb a).confidence ≠ a.confidence →
      ∃ sfx st, pyOr a.suffix a.ending = some sfx ∧
        assocGet sfx fb.suffix_accuracy = some st ∧
        3 ≤ st.correct + st.incorrect ∧
        ((0.8 < accuracyOf st ∧ 3 ≤ st.correct ∧
            (adjustOne fb a).confidence = qmin 1 (a.confidence + 0.10)) ∨
         (accuracyOf st < 0.3 ∧
            (adjustOne fb a).confidence = qmax 0.1 (a.confidence - 0.15)))) := by
  have hc := adjustOne_conf fb a h0 h1
  exact ⟨⟨hc.2.2.1, hc.2.2.2⟩, adjustOne_changed fb a⟩

/-- Witness for the amended C7 at the concrete store fbA and candidate aC7
(a boosted suffix). -/
theorem feedback_adjustment_fixed_steps_witness :
    (aC7.confidence - 0.15 ≤ (adjustOne fbA aC7).confidence ∧
     (adjustOne fbA aC7).confidence ≤ aC7.confidence + 0.10) ∧
    (∃ sfx st, pyOr aC7.suffix aC7.ending = some sfx ∧
      assocGet sfx fbA.suffix_accuracy = some st ∧
      3 ≤ st.correct + st.incorrect ∧
      ((0.8 < accuracyOf st ∧ 3 ≤ st.correct ∧
          (adjustOne fbA aC7).confidence = qmin 1 (aC7.confidence + 0.10)) ∨
       (accuracyOf st < 0.3 ∧
          (adjustOne fbA aC7).confidence = qmax 0.1 (aC7.confidence - 0.15)))) := by
  have h := feedback_adjustment_fixed_steps fbA aC7 (by decide) (by decide)
  exact ⟨h.1, h.2 (by decide)⟩

/-- Attested index of the C8 counterexample: the surface form "puttaM" is
attested under BOTH stems "putta" and "mitta". -/
def dbC8 : List (List Char × List (List Char × NounTags)) :=
  [("putta".toList, [("puttaM".toList, {})]),
   ("mitta".toList, [("puttaM".toList, {})])]

/-- C8 counterexample: with "puttaM" attested under two stems,
`check_attested_form` returns only the first matching stem ("putta") — the
second matching stem ("mitta", shown to match by the single-entry lookup)
is silently dropped, and `parse` returns a single attested candidate
instead of one per stem. -/
theorem attested_lookup_truncated_to_first :
    ((parse { all_noun_forms := dbC8 } "puttaM".toList).analyses.map
        (fun a => a.stem)) = [some "putta".toList] ∧
    (checkAttestedNounForm dbC8 "puttaM".toList).map (fun a => a.stem) =
      some (some "putta".toList) ∧
    (checkAttestedNounForm [("mitta".toList, [("puttaM".toList, {})])]
        "puttaM".toList).map (fun a => a.stem) =
      some (some "mitta".toList) := by decide

/-- C8 amended: the all-stems guarantee holds for `analyze_noun_form` of
noun_analyzer.py: for every database entry whose forms contain the word, a
confidence-1.0 attested candidate with that stem is in the returned list
(one candidate per matching stem, never merged); the unified
`check_attested_form` instead stops at the first matching stem. -/
theorem analyzeNounForm_returns_every_matching_stem
    (db : List (List Char × List (List Char × NounTags)))
    (f : List Char → List Char) (word stem : List Char)
    (forms : List (List Char × NounTags)) (tags : NounTags)
    (hmem : (stem, forms) ∈ db)
    (hhit : assocGet (naHkOf f word) forms = some tags) :
    ∃ a ∈ analyzeNounForm db f word, a.stem = some stem ∧
      a.confidence = 1 ∧ a.source = "attested in all_noun_forms.json" := by
  have hc : ∃ a ∈ naAttestedMatches db (naHkOf f word),
      a.stem = some stem ∧ a.confidence = 1 ∧
      a.source = "attested in all_noun_forms.json" := by
    refine ⟨{ form := naHkOf f word, stem := some stem,
              gender := some (tags.gender.getD "unknown"),
              kase := some (tags.kase.getD "unknown"),
              number := some (tags.number.getD "unknown"),
              source := "attested in all_noun_forms.json",
              confidence := 1,
              notes := [Note.naAttested stem] }, ?_, rfl, rfl, rfl⟩
    refine List.mem_filterMap.mpr ⟨(stem, forms), hmem, ?_⟩
    show (assocGet (naHkOf f word) forms).map _ = _
    rw [hhit]
    rfl
  rcases hc with ⟨a, ha, hfields⟩
  have hcand : a ∈ naCandidates db (naHkOf f word) :=
    List.mem_append_left _ ha
  have hwf : a ∈ naWithFallback db (naHkOf f word) := by
    unfold naWithFallback
    by_cases he : naCandidates db (naHkOf f word) = []
    · rw [he] at hcand; exact absurd hcand (List.not_mem_nil a)
    · rw [if_neg he]; exact hcand
  exact ⟨a, by unfold analyzeNounForm; exact mem_sortD.mpr hwf, hfields⟩

/-- Witness for the amended C8 on the two-stem database: the second
matching stem "mitta" is among the candidates of `analyze_noun_form`. -/
theorem analyzeNounForm_returns_every_matching_stem_witness :
    ∃ a ∈ analyzeNounForm dbC8 id "puttaM".toList,
      a.stem = some "mitta".toList ∧ a.confidence = 1 ∧
      a.source = "attested in all_noun_forms.json" :=
  analyzeNounForm_returns_every_matching_stem dbC8 id "puttaM".toList
    "mitta".toList [("puttaM".toList, {})] {} (by decide) (by decide)

/-- C9 counterexample: on input "Nei" with verb-root list [NI], the matched
ending rule "i" has base confidence 0.7, and the sandhi-derived candidate
(root NI via e→ī reversal, annotated in notes) is returned with confidence
0.9 — an additive +0.20 boost above the rule confidence, not a
multiplicative penalty below it. -/
theorem sandhi_confidence_boosted_not_penalized :
    ((analyzeAsVerb pV1 "Nei".toList).map
        (fun a => (a.source, a.confidence))) =
      [("sandhi_analysis", 0.9), ("sandhi_analysis", 0.82)] ∧
    ((analyzeAsVerb pV1 "Nei".toList).getD 0 {}).notes =
      [Note.verbSandhi "NI".toList SandhiRule.eLong] ∧
    (assocGet "i".toList verbEndings).map (fun i => i.confidence) =
      some 0.7 ∧
    ((0.7 : ℚ) < 0.9) := by decide

/-- C9 amended: every sandhi-derived verb candidate is built from a matched
ending rule with an ADDITIVE confidence boost of +0.20 (full sandhi match)
or +0.12 (partial match) over the rule's base confidence, clamped to
[0.1, 1] — higher than a direct match's +0.15, not a penalty — and the
sandhi derivation (root and rule) is annotated in the candidate's notes. -/
theorem sandhi_candidates_boosted_and_annotated (p : ParserState)
    (w : List Char) (a : Analysis) (h : a ∈ analyzeAsVerb p w)
    (hsrc : a.source = "sandhi_analysis") :
    ∃ m root rule, m ∈ findSuffixMatches w verbEndings ∧
      a.ending = some m.suffix ∧ a.root = some root ∧
      a.notes = [Note.verbSandhi root rule] ∧
      (a.confidence = qmin (qmax (m.info.confidence + 0.20) 0.1) 1 ∨
       a.confidence = qmin (qmax (m.info.confidence + 0.12) 0.1) 1) := by
  unfold analyzeAsVerb at h
  cases hatt : findVerbRoot p.all_verb_forms w with
  | some root =>
    rw [hatt] at h
    have hs2 : a.source = "attested_verb" := by
      rw [List.mem_singleton.mp h]
      rfl
    rw [hsrc] at hs2
    exact absurd hs2 (by decide)
  | none =>
    rw [hatt] at h
    rcases List.mem_flatMap.mp h with ⟨m, hm10, hma⟩
    unfold verbAnalysesOfMatch at hma
    rcases List.mem_filterMap.mp hma with ⟨c, hcm, hci⟩
    by_cases hval : isValidPrakritStem c.root = true
    · rw [if_pos hval] at hci
      have ha := Option.some.inj hci
      rcases verbAnalysisOfCand_shape w m c with ⟨_, _, hr, he, _, hcf, hsrc2⟩
      rcases hsrc2 with ⟨hnone, hsrcv⟩ | ⟨rule, hnote, hsrcv, hnotes⟩
      · exfalso
        rw [← ha, hsrcv] at hsrc
        exact absurd hsrc (by decide)
      · rcases mem_verbCands hcm with ⟨hn0, _⟩ | ⟨_, hboost⟩
        · rw [hn0] at hnote; cases hnote
        · refine ⟨m, c.root, rule, List.mem_of_mem_take hm10, ?_, ?_, ?_, ?_⟩
          · rw [← ha]; exact he
          · rw [← ha]; exact hr
          · rw [← ha]; exact hnotes
          · rw [← ha, hcf]
            rcases hboost with hb | hb
            · left; rw [hb]
            · right; rw [hb]
    · rw [if_neg hval] at hci; cases hci

/-- Witness for the amended C9 at the concrete input "Nei" with verb roots
[NI]: the first returned analysis is a sandhi candidate. -/
theorem sandhi_candidates_boosted_and_annotated_witness :
    ∃ m root rule, m ∈ findSuffixMatches "Nei".toList verbEndings ∧
      ((analyzeAsVerb pV1 "Nei".toList).getD 0 {}).ending = some m.suffix ∧
      ((analyzeAsVerb pV1 "Nei".toList).getD 0 {}).root = some root ∧
      ((analyzeAsVerb pV1 "Nei".toList).getD 0 {}).notes =
        [Note.verbSandhi root rule] ∧
      (((analyzeAsVerb pV1 "Nei".toList).getD 0 {}).confidence =
          qmin (qmax (m.info.confidence + 0.20) 0.1) 1 ∨
       ((analyzeAsVerb pV1 "Nei".toList).getD 0 {}).confidence =
          qmin (qmax (m.info.confidence + 0.12) 0.1) 1) :=
  sandhi_candidates_boosted_and_annotated pV1 "Nei".toList _ (by decide)
    (by decide)

/-- Per-element length bound through flatMap. -/
theorem length_flatMap_le {α β : Type} (l : List α) (f : α → List β) (n : ℕ)
    (h : ∀ x ∈ l, (f x).length ≤ n) : (l.flatMap f).length ≤ l.length * n := by
  induction l with
  | nil => simp
  | cons a l ih =>
    rw [List.flatMap_cons, List.length_append, List.length_cons]
    have h1 := h a (List.mem_cons_self a l)
    have h2 := ih (fun x hx => h x (List.mem_cons_of_mem a hx))
    calc (f a).length + (l.flatMap f).length ≤ n + l.length * n := by omega
      _ = (l.length + 1) * n := by ring

/-- One suffix match yields at most genders x cases x numbers analyses. -/
theorem nounAnalysesOfMatch_len (w : List Char) (m : SMatch) :
    (nounAnalysesOfMatch w m).length ≤
      m.info.genders.length * (m.info.cases.length * m.info.numbers.length) := by
  unfold nounAnalysesOfMatch
  apply length_flatMap_le
  intro g hg
  unfold nounAnalysesOfGender nounGuessesChecked
  by_cases h1 : reconstructNounStem m.base m.suffix g = [] ∨
      (reconstructNounStem m.base m.suffix g).length < 2
  · rw [if_pos h1]
    exact Nat.zero_le _
  · rw [if_neg h1]
    by_cases h2 : isValidPrakritStem (reconstructNounStem m.base m.suffix g) = false
    · rw [if_pos h2]
      exact Nat.zero_le _
    · rw [if_neg h2]
      apply length_flatMap_le
      intro c hc
      simp

/-- Clamping below 0.95 stays strictly below 1. -/
theorem qmin_lt_one {b : ℚ} (h : b ≤ 0.95) : qmin b 1 < 1 := by
  unfold qmin
  split
  · linarith
  · linarith

/-- Analyses built from a suffix rule of confidence at most 0.9 stay strictly
below confidence 1 even after the stem-final-vowel boost. -/
theorem nounAnalysesOfMatch_conf_lt_one (w : List Char) (m : SMatch)
    (hc : m.info.confidence ≤ 0.9) :
    ∀ a ∈ nounAnalysesOfMatch w m, a.confidence < 1 := by
  intro a ha
  rcases List.mem_flatMap.mp ha with ⟨g, hg, hga⟩
  unfold nounAnalysesOfGender at hga
  rcases mem_nounGuessesChecked hga with ⟨_, _, c, n, _, _, hae⟩
  have hconf : a.confidence =
      qmin (if endsStemBoost (reconstructNounStem m.base m.suffix g)
        then m.info.confidence + 0.05 else m.info.confidence) 1 := by
    rw [hae]
    rfl
  rw [hconf]
  have hx : (if endsStemBoost (reconstructNounStem m.base m.suffix g)
      then m.info.confidence + 0.05 else m.info.confidence) ≤ 0.95 := by
    split
    · linarith
    · linarith
  exact qmin_lt_one hx

/-- The noun path yields at most 6 analyses of confidence at least 1: only the
four length-5 suffixes of rule confidence 0.95 can reach 1 after the boost, at
most one of them matches one word, and it produces at most 6 analyses. -/
theorem noun_count_le_six (p : ParserState) (w : List Char) :
    (analyzeAsNoun p w).countP (fun a => decide ((1:ℚ) ≤ a.confidence)) ≤ 6 := by
  unfold analyzeAsNoun
  cases hatt : checkAttestedNounForm p.all_noun_forms w with
  | some att =>
    show ([att].countP (fun a => decide ((1:ℚ) ≤ a.confidence))) ≤ 6
    exact le_trans (List.countP_le_length _) (by simp)
  | none =>
    show (((findSuffixMatches w nounSuffixes).take 10).flatMap
        (nounAnalysesOfMatch w)).countP
        (fun a => decide ((1:ℚ) ≤ a.confidence)) ≤ 6
    rw [countP_flatMap]
    apply sum_le_of_single _ _ (fun m => decide (m.suffix ∈ big4)) 6
    · intro m hm
      have htbl := findSuffixMatches_mem_tbl w nounSuffixes m
        (List.mem_of_mem_take hm)
      show (nounAnalysesOfMatch w m).countP
          (fun a => decide ((1:ℚ) ≤ a.confidence)) ≤
        if decide (m.suffix ∈ big4) = true then 6 else 0
      by_cases hbig : m.suffix ∈ big4
      · rw [if_pos (decide_eq_true hbig)]
        exact le_trans (List.countP_le_length _)
          (le_trans (nounAnalysesOfMatch_len w m)
            (nounTbl_big4_combos (m.suffix, m.info) htbl hbig))
      · have hnq : ¬ (decide (m.suffix ∈ big4) = true) :=
          fun h => hbig (of_decide_eq_true h)
        rw [if_neg hnq, Nat.le_zero, List.countP_eq_zero]
        intro a ha
        have hc9 : m.info.confidence ≤ 0.9 := by
          rcases nounTbl_big4_or_small (m.suffix, m.info) htbl with h | h
          · exact absurd h hbig
          · exact h
        have hlt := nounAnalysesOfMatch_conf_lt_one w m hc9 a ha
        simp only [decide_eq_true_eq]
        intro hge
        linarith
    · refine countP_le_one_of_key _ (fun m => m.suffix) _ ?_ ?_
      · exact (findSuffixMatches_nodup w nounSuffixes nounTbl_nodup).sublist
          ((List.take_sublist 10 _).map _)
      · intro x hx hqx y hy hqy
        have hxs := (findSuffixMatches_facts w nounSuffixes x
          (List.mem_of_mem_take hx)).1
        have hys := (findSuffixMatches_facts w nounSuffixes y
          (List.mem_of_mem_take hy)).1
        have hx5 := big4_length x.suffix (of_decide_eq_true hqx)
        have hy5 := big4_length y.suffix (of_decide_eq_true hqy)
        exact suffix_eq_of_length hxs hys (by rw [hx5, hy5])

/-- The two word-classes of the attested index. -/
inductive WClass where
  | noun
  | verb
deriving DecidableEq

/-- Is the surface form present in the attested index of the word-class? -/
def attestedHit (p : ParserState) (w : List Char) : WClass → Bool
  | WClass.noun => (findNounHit p.all_noun_forms w).isSome
  | WClass.verb => (findVerbRoot p.all_verb_forms w).isSome

/-- Membership of a candidate in a word-class: noun candidates carry
`type: noun` or the attested-noun source (the attested noun dict carries no
`type` key); verb candidates carry `type: verb`. -/
def isClassCand : WClass → Analysis → Bool
  | WClass.noun, a => a.typ == some "noun" || a.source == "attested_noun"
  | WClass.verb, a => a.typ == some "verb"

/-- The attested source tag of each word-class. -/
def attestedSourceOf : WClass → String
  | WClass.noun => "attested_noun"
  | WClass.verb => "attested_verb"

/-- Attested index used by the C1 witness. -/
def pC1 : ParserState :=
  { all_noun_forms := [("gaccha".toList, [("gacchaM".toList,
      { gender := some "masculine", kase := some "accusative",
        number := some "singular" })])] }

/-- C1: on an accepted input whose normalized form is attested for a
word-class, the analyses list returned by `parse` contains an attested
candidate of that class with confidence exactly 1.0, it is the first (hence
top-ranked) candidate of its class, and the top-15 truncation never drops
it: at most 6 heuristic noun candidates can tie at confidence 1 ahead of an
attested verb candidate, and none ahead of an attested noun candidate. -/
theorem attested_candidate_tops_its_class (p : ParserState) (t : List Char)
    (c : WClass) (hval : firstForbidden (transHk p t) = none)
    (hhit : attestedHit p (wordHk p t) c = true) :
    (parse p t).success = true ∧
    ∃ a, (parse p t).analyses.find? (isClassCand c) = some a ∧
      a.source = attestedSourceOf c ∧ a.confidence = 1 := by
  obtain ⟨hsucc, hana⟩ := parse_success_eq p t hval
  refine ⟨hsucc, ?_⟩
  rw [hana]
  set w := wordHk p t with hw
  cases c with
  | noun =>
    have hhit2 : (findNounHit p.all_noun_forms w).isSome = true := hhit
    obtain ⟨hit, hfn⟩ := Option.isSome_iff_exists.mp hhit2
    obtain ⟨att, hnoun, hsrc, hcf, hsfx, hend⟩ :
        ∃ a, analyzeAsNoun p w = [a] ∧ a.source = "attested_noun" ∧
          a.confidence = 1 ∧ a.suffix = none ∧ a.ending = none := by
      refine ⟨{ form := w, stem := some hit.1,
                gender := some (hit.2.gender.getD "unknown"),
                kase := some (hit.2.kase.getD "unknown"),
                number := some (hit.2.number.getD "unknown"),
                source := "attested_noun", confidence := 1 },
              ?_, rfl, rfl, rfl, rfl⟩
      unfold analyzeAsNoun checkAttestedNounForm
      rw [hfn]
      rfl
    have hcls : isClassCand WClass.noun att = true := by
      show (att.typ == some "noun" || att.source == "attested_noun") = true
      rw [hsrc]
      simp
    have hmax1 : ∀ x ∈ ([] : List Analysis) ++ analyzeAsVerb p w,
        x.confidence ≤ att.confidence := by
      intro x hx
      rw [List.nil_append] at hx
      rw [hcf]
      exact (mem_analyzeAsVerb hx).2.2.2.2.1
    obtain ⟨Q1, T1, hs1, hq1len, hq1mem⟩ :=
      sortConf_split att [] (analyzeAsVerb p w) hmax1
    have hq1nil : Q1 = [] :=
      List.length_eq_zero.mp (by rw [hq1len]; exact List.countP_nil _)
    subst hq1nil
    simp only [List.nil_append] at hs1
    have hT1 : ∀ y ∈ T1, 0 ≤ y.confidence ∧ y.confidence ≤ 1 := by
      intro y hy
      have h1 : y ∈ sortD confLe (att :: analyzeAsVerb p w) := by
        rw [hs1]
        exact List.mem_cons_of_mem att hy
      rcases List.mem_cons.mp (mem_sortD.mp h1) with h3 | h3
      · rw [h3, hcf]
        exact ⟨by norm_num, le_refl 1⟩
      · have h4 := mem_analyzeAsVerb h3
        exact ⟨h4.2.2.2.1, h4.2.2.2.2.1⟩
    have hmax2 : ∀ x ∈ ([] : List Analysis) ++ T1.map (adjustOne p.feedback),
        x.confidence ≤ att.confidence := by
      intro x hx
      rw [List.nil_append] at hx
      rcases List.mem_map.mp hx with ⟨y, hy, hxy⟩
      rcases hT1 y hy with ⟨h0, h1⟩
      rw [← hxy, hcf]
      exact (adjustOne_conf p.feedback y h0 h1).2.1
    obtain ⟨Q2, T2, hs2, hq2len, hq2mem⟩ :=
      sortConf_split att [] (T1.map (adjustOne p.feedback)) hmax2
    have hq2nil : Q2 = [] :=
      List.length_eq_zero.mp (by rw [hq2len]; exact List.countP_nil _)
    subst hq2nil
    simp only [List.nil_append] at hs2
    have hpipe : parsePipeline p w = att :: T2 := by
      unfold parsePipeline applyLearned
      rw [hnoun, List.singleton_append, hs1, List.map_cons,
        adjustOne_of_none p.feedback att hsfx hend]
      exact hs2
    refine ⟨att, ?_, hsrc, hcf⟩
    rw [hpipe]
    rw [show (att :: T2).take 15 = att :: T2.take 14 from rfl]
    exact List.find?_cons_of_pos _ hcls
  | verb =>
    have hhit2 : (findVerbRoot p.all_verb_forms w).isSome = true := hhit
    obtain ⟨root, hfr⟩ := Option.isSome_iff_exists.mp hhit2
    have hverb : analyzeAsVerb p w = [attestedVerbAnalysis w root] := by
      unfold analyzeAsVerb
      rw [hfr]
    have hmax1 : ∀ x ∈ analyzeAsNoun p w ++ ([] : List Analysis),
        x.confidence ≤ (attestedVerbAnalysis w root).confidence := by
      intro x hx
      rw [List.append_nil] at hx
      show x.confidence ≤ 1
      rcases mem_analyzeAsNoun hx with h | h
      · exact le_of_eq h.2.2.1
      · exact h.2.2.2.1
    obtain ⟨Q1, T1, hs1, hq1len, hq1mem⟩ :=
      sortConf_split (attestedVerbAnalysis w root) (analyzeAsNoun p w) [] hmax1
    have hq1le : Q1.length ≤ 6 := by
      rw [hq1len]
      exact noun_count_le_six p w
    have hT1 : ∀ y ∈ T1, 0 ≤ y.confidence ∧ y.confidence ≤ 1 := by
      intro y hy
      have h1 : y ∈ sortD confLe
          (analyzeAsNoun p w ++ attestedVerbAnalysis w root :: []) := by
        rw [hs1]
        exact List.mem_append_right _ (List.mem_cons_of_mem _ hy)
      rcases List.mem_append.mp (mem_sortD.mp h1) with h3 | h3
      · rcases mem_analyzeAsNoun h3 with h | h
        · exact ⟨by rw [h.2.2.1]; norm_num, le_of_eq h.2.2.1⟩
        · exact ⟨h.2.2.1, h.2.2.2.1⟩
      · rcases List.mem_cons.mp h3 with h4 | h4
        · rw [h4]
          exact ⟨(by norm_num : (0:ℚ) ≤ 1), (by norm_num : (1:ℚ) ≤ 1)⟩
        · exact absurd h4 (List.not_mem_nil y)
    have hveq : adjustOne p.feedback (attestedVerbAnalysis w root) =
        attestedVerbAnalysis w root :=
      adjustOne_of_none p.feedback _ rfl rfl
    have hmapeq : (Q1 ++ attestedVerbAnalysis w root :: T1).map
          (adjustOne p.feedback)
        = Q1.map (adjustOne p.feedback) ++
          attestedVerbAnalysis w root :: T1.map (adjustOne p.feedback) := by
      rw [List.map_append, List.map_cons, hveq]
    have hmax2 : ∀ x ∈ Q1.map (adjustOne p.feedback) ++
        T1.map (adjustOne p.feedback),
        x.confidence ≤ (attestedVerbAnalysis w root).confidence := by
      intro x hx
      show x.confidence ≤ 1
      rcases List.mem_append.mp hx with h | h
      · rcases List.mem_map.mp h with ⟨y, hy, hxy⟩
        have hyn := (hq1mem y hy).1
        have hb : 0 ≤ y.confidence ∧ y.confidence ≤ 1 := by
          rcases mem_analyzeAsNoun hyn with h2 | h2
          · exact ⟨by rw [h2.2.2.1]; norm_num, le_of_eq h2.2.2.1⟩
          · exact ⟨h2.2.2.1, h2.2.2.2.1⟩
        rw [← hxy]
        exact (adjustOne_conf p.feedback y hb.1 hb.2).2.1
      · rcases List.mem_map.mp h with ⟨y, hy, hxy⟩
        rcases hT1 y hy with ⟨h0, h1⟩
        rw [← hxy]
        exact (adjustOne_conf p.feedback y h0 h1).2.1
    obtain ⟨Q2, T2, hs2, hq2len, hq2mem⟩ :=
      sortConf_split (attestedVerbAnalysis w root)
        (Q1.map (adjustOne p.feedback)) (T1.map (adjustOne p.feedback)) hmax2
    have hq2le : Q2.length ≤ 6 := by
      rw [hq2len]
      exact le_trans (List.countP_le_length _)
        (by rw [List.length_map]; exact hq1le)
    have hpipe : parsePipeline p w =
        Q2 ++ attestedVerbAnalysis w root :: T2 := by
      unfold parsePipeline applyLearned
      rw [hverb, hs1, hmapeq, hs2]
    obtain ⟨k, hk⟩ : ∃ k, 15 - Q2.length = k + 1 :=
      ⟨14 - Q2.length, by omega⟩
    have htake : (Q2 ++ attestedVerbAnalysis w root :: T2).take 15
        = Q2 ++ attestedVerbAnalysis w root :: T2.take k := by
      rw [List.take_append_eq_append_take,
        List.take_of_length_le (le_trans hq2le (by norm_num)), hk,
        List.take_succ_cons]
    have hq2f : ∀ x ∈ Q2, isClassCand WClass.verb x = false := by
      intro x hx
      have hxm := (hq2mem x hx).1
      rcases List.mem_map.mp hxm with ⟨y, hy, hxy⟩
      have hyn := (hq1mem y hy).1
      have htypx : x.typ = y.typ := by
        rw [← hxy]
        exact (adjustOne_fields p.feedback y).1
      show (x.typ == some "verb") = false
      rw [htypx]
      rcases mem_analyzeAsNoun hyn with h | h
      · rw [h.2.1]
        decide
      · rw [h.2.1]
        decide
    have hclsv : isClassCand WClass.verb (attestedVerbAnalysis w root) = true :=
      rfl
    refine ⟨attestedVerbAnalysis w root, ?_, rfl, rfl⟩
    rw [hpipe, htake,
      find?_append_of_none (isClassCand WClass.verb) Q2 _ hq2f]
    exact List.find?_cons_of_pos _ hclsv

/-- Witness for C1 at the state pC1 and the input "gacchaM", attested as a
noun under the stem "gaccha". -/
theorem attested_candidate_tops_its_class_witness :
    (parse pC1 "gacchaM".toList).success = true ∧
    ∃ a, (parse pC1 "gacchaM".toList).analyses.find?
        (isClassCand WClass.noun) = some a ∧
      a.source = attestedSourceOf WClass.noun ∧ a.confidence = 1 :=
  attested_candidate_tops_its_class pC1 "gacchaM".toList WClass.noun
    (by decide) (by decide)

end Prakrit
